import Mathlib

/-!
# HeliosDB: verification of the LSM key-value engine against its specification

Shallow embedding of the HeliosDB sources (`src/db.cpp`, `src/sstable.cpp`,
`src/main.cpp` bundle: `bloom.cpp` / `sstable.cpp` member variant / `wal.cpp`).
Byte strings are `List Nat` with each byte below 256 in genuine runs; machine
integers are `Nat` reduced modulo `2^32` / `2^64` exactly where the C++ code
truncates.
-/

namespace Helios

/-- A byte string (C++ `std::string` viewed as unsigned bytes). -/
abbrev Str := List Nat

/-! ## Hash / checksum primitives (`SSTable::fnv1a_32`, `WAL::fnv1a_32`,
`BloomFilter::fnv1a_64`, `BloomFilter::hash64`) -/

/-- One step of FNV-1a-32: `h ^= b; h *= 16777619` on `uint32_t`. -/
def fnvStep32 (h b : Nat) : Nat := ((h ^^^ b) * 16777619) % 2 ^ 32

/-- FNV-1a-32 folded from an arbitrary running state. -/
def fnvFold32 (h : Nat) (l : List Nat) : Nat := l.foldl fnvStep32 h

/-- `fnv1a_32` over a byte buffer (offset basis 2166136261). -/
def fnv1a32 (l : List Nat) : Nat := fnvFold32 2166136261 l

/-- One step of FNV-1a-64: `h ^= b; h *= 1099511628211` on `uint64_t`. -/
def fnvStep64 (h b : Nat) : Nat := ((h ^^^ b) * 1099511628211) % 2 ^ 64

/-- `fnv1a_64` over a byte buffer (offset basis 14695981039346656037). -/
def fnv1a64 (l : List Nat) : Nat := l.foldl fnvStep64 14695981039346656037

/-- The three-round finalizing mix in `BloomFilter::hash64`. -/
def mix64 (h0 : Nat) : Nat :=
  let h1 := h0 ^^^ (h0 >>> 33)
  let h2 := (h1 * 0xff51afd7ed558ccd) % 2 ^ 64
  let h3 := h2 ^^^ (h2 >>> 33)
  let h4 := (h3 * 0xc4ceb9fe1a85ec53) % 2 ^ 64
  h4 ^^^ (h4 >>> 33)

/-- `BloomFilter::hash64(s, seed)`: seed XOR FNV-1a-64 of the key, then mix. -/
def hash64 (s : Str) (seed : Nat) : Nat := mix64 (seed ^^^ fnv1a64 s)

/-! ## Little-endian integer encoding (all on-disk integers are LE) -/

/-- Encode a `uint32_t` as 4 little-endian bytes. -/
def le32 (n : Nat) : List Nat :=
  [n % 256, n / 256 % 256, n / 256 ^ 2 % 256, n / 256 ^ 3 % 256]

/-- Encode a `uint64_t` as 8 little-endian bytes. -/
def le64 (n : Nat) : List Nat :=
  [n % 256, n / 256 % 256, n / 256 ^ 2 % 256, n / 256 ^ 3 % 256,
   n / 256 ^ 4 % 256, n / 256 ^ 5 % 256, n / 256 ^ 6 % 256, n / 256 ^ 7 % 256]

/-- Little-endian value of a byte list (how `memcpy` into an integer reads it). -/
def leVal : List Nat → Nat
  | [] => 0
  | b :: bs => b + 256 * leVal bs

theorem le32_length (n : Nat) : (le32 n).length = 4 := rfl

theorem le64_length (n : Nat) : (le64 n).length = 8 := rfl

theorem leVal_le32 (n : Nat) (h : n < 2 ^ 32) : leVal (le32 n) = n := by
  simp only [le32, leVal]
  omega

theorem leVal_le64 (n : Nat) (h : n < 2 ^ 64) : leVal (le64 n) = n := by
  simp only [le64, leVal]
  omega

/-- Bounded reads from a byte buffer: `some` of the `n` bytes at `off` when they
all exist, `none` otherwise (models `pread_all` / `ifstream::read` failure). -/
def readBytes (f : List Nat) (off n : Nat) : Option (List Nat) :=
  if off + n ≤ f.length then some ((f.drop off).take n) else none

theorem readBytes_of_drop {f : List Nat} {off : Nat} {chunk rest : List Nat}
    (hoff : off ≤ f.length) (hdrop : f.drop off = chunk ++ rest) :
    readBytes f off chunk.length = some chunk := by
  have hlen : f.length - off = chunk.length + rest.length := by
    have := congrArg List.length hdrop
    simpa [List.length_drop] using this
  unfold readBytes
  rw [if_pos (by omega)]
  rw [hdrop]
  simp

theorem readBytes_none {f : List Nat} {off n : Nat} (h : f.length < off + n) :
    readBytes f off n = none := by
  unfold readBytes
  rw [if_neg (by omega)]

/-! ## Unsigned lexicographic byte order (`std::string::operator<`) -/

/-- Lexicographic strict order on byte strings, as `char_traits` compares. -/
def strLt : Str → Str → Bool
  | [], [] => false
  | [], _ :: _ => true
  | _ :: _, [] => false
  | a :: as, b :: bs => if a < b then true else if b < a then false else strLt as bs

theorem strLt_irrefl (a : Str) : strLt a a = false := by
  induction a with
  | nil => rfl
  | cons x xs ih => simp [strLt, ih]

theorem strLt_trans : ∀ {a b c : Str}, strLt a b = true → strLt b c = true →
    strLt a c = true
  | [], [], _ :: _, h, _ => by cases h
  | [], _ :: _, _ :: _, _, _ => rfl
  | _ :: _, [], _, h, _ => by cases h
  | _ :: _, _ :: _, [], _, h => by cases h
  | a :: as, b :: bs, c :: cs, h1, h2 => by
    simp only [strLt] at h1 h2 ⊢
    split at h1
    · split at h2
      · rw [if_pos (by omega)]
      · split at h2
        · cases h2
        · rw [if_pos (by omega)]
    · split at h1
      · cases h1
      · split at h2
        · rw [if_pos (by omega)]
        · split at h2
          · cases h2
          · have hab : a = b := by omega
            have hbc : b = c := by omega
            subst hab; subst hbc
            rw [if_neg (by omega), if_neg (by omega)]
            exact strLt_trans h1 h2

theorem strLt_total : ∀ {a b : Str}, strLt a b = false → strLt b a = false → a = b
  | [], [], _, _ => rfl
  | [], _ :: _, h, _ => by cases h
  | _ :: _, [], _, h => by cases h
  | a :: as, b :: bs, h1, h2 => by
    simp only [strLt] at h1 h2
    by_cases hab : a < b
    · rw [if_pos hab] at h1; cases h1
    · by_cases hba : b < a
      · rw [if_pos hba] at h2; cases h2
      · have hy : a = b := by omega
        subst hy
        rw [if_neg hab, if_neg hab] at h1
        rw [if_neg hab, if_neg hab] at h2
        rw [strLt_total h1 h2]

theorem strLt_asymm {a b : Str} (h : strLt a b = true) : strLt b a = false := by
  by_contra hc
  have hba : strLt b a = true := by
    cases hh : strLt b a
    · exact absurd hh hc
    · rfl
  have := strLt_trans h hba
  rw [strLt_irrefl] at this
  cases this

/-! ## Bloom filter (`bloom.cpp`) -/

/-- Seed for the first probe hash (`0xA5A5...`). -/
def seedA : Nat := 0xA5A5A5A5A5A5A5A5

/-- Seed for the second probe hash (`0x5A5A...`). -/
def seedB : Nat := 0x5A5A5A5A5A5A5A5A

/-- `BloomFilter`: bit count, probe count, packed bit bytes. -/
structure BloomFilter where
  m_bits : Nat
  k_hashes : Nat
  bits : List Nat
deriving Repr, DecidableEq

/-- `BloomFilter::BloomFilter(m_bits, k_hashes)`: zero both on degenerate input,
else allocate `(m+7)/8` zero bytes. -/
def BloomFilter.init (m k : Nat) : BloomFilter :=
  if m = 0 ∨ k = 0 then ⟨0, 0, []⟩ else ⟨m, k, List.replicate ((m + 7) / 8) 0⟩

/-- `BloomFilter::set_bit`: `idx %= m_bits; bits[idx/8] |= 1 << (idx%8)`. -/
def BloomFilter.set_bit (bf : BloomFilter) (idx0 : Nat) : BloomFilter :=
  ⟨bf.m_bits, bf.k_hashes, bf.bits.set (idx0 % bf.m_bits / 8)
      (bf.bits.getD (idx0 % bf.m_bits / 8) 0 ||| 1 <<< (idx0 % bf.m_bits % 8))⟩

/-- `BloomFilter::get_bit`: `idx %= m_bits; (bits[idx/8] & (1 << (idx%8))) != 0`. -/
def BloomFilter.get_bit (bf : BloomFilter) (idx0 : Nat) : Bool :=
  decide (bf.bits.getD (idx0 % bf.m_bits / 8) 0 &&& 1 <<< (idx0 % bf.m_bits % 8) ≠ 0)

/-- Probe `i` of double hashing: `uint32_t((h1 + i*h2) % m_bits)` on `uint64_t`. -/
def probeIdx (h1 h2 m i : Nat) : Nat := (h1 + i * h2) % 2 ^ 64 % m % 2 ^ 32

/-- `BloomFilter::add`. -/
def BloomFilter.add (bf : BloomFilter) (key : Str) : BloomFilter :=
  if bf.m_bits = 0 ∨ bf.k_hashes = 0 then bf
  else
    let h1 := hash64 key seedA
    let h2 := hash64 key seedB ||| 1
    (List.range bf.k_hashes).foldl (fun b i => b.set_bit (probeIdx h1 h2 bf.m_bits i)) bf

/-- `BloomFilter::possibly_contains`. -/
def BloomFilter.possibly_contains (bf : BloomFilter) (key : Str) : Bool :=
  if bf.m_bits = 0 ∨ bf.k_hashes = 0 then true
  else
    let h1 := hash64 key seedA
    let h2 := hash64 key seedB ||| 1
    (List.range bf.k_hashes).all (fun i => bf.get_bit (probeIdx h1 h2 bf.m_bits i))

theorem and_two_pow_ne_zero (y j : Nat) : decide (y &&& 2 ^ j ≠ 0) = y.testBit j := by
  rcases hb : y.testBit j
  · simp [Nat.and_two_pow, hb]
  · have h2 : (2 : Nat) ^ j ≠ 0 := by positivity
    simp [Nat.and_two_pow, hb, h2]

theorem BloomFilter.get_bit_eq_testBit (bf : BloomFilter) (i : Nat) :
    bf.get_bit i = (bf.bits.getD (i % bf.m_bits / 8) 0).testBit (i % bf.m_bits % 8) := by
  unfold get_bit
  rw [Nat.one_shiftLeft, and_two_pow_ne_zero]

theorem BloomFilter.set_bit_m_bits (bf : BloomFilter) (i : Nat) :
    (bf.set_bit i).m_bits = bf.m_bits := rfl

theorem BloomFilter.set_bit_k_hashes (bf : BloomFilter) (i : Nat) :
    (bf.set_bit i).k_hashes = bf.k_hashes := rfl

theorem BloomFilter.set_bit_bits (bf : BloomFilter) (i : Nat) :
    (bf.set_bit i).bits = bf.bits.set (i % bf.m_bits / 8)
      (bf.bits.getD (i % bf.m_bits / 8) 0 ||| 1 <<< (i % bf.m_bits % 8)) := rfl

theorem BloomFilter.set_bit_bits_length (bf : BloomFilter) (i : Nat) :
    (bf.set_bit i).bits.length = bf.bits.length := by
  rw [set_bit_bits, List.length_set]

theorem getD_set_self (l : List Nat) (i a : Nat) (h : i < l.length) :
    (l.set i a).getD i 0 = a := by
  rw [List.getD_eq_getElem _ _ (by simpa using h)]
  simp [List.getElem_set_self]

theorem getD_set_ne (l : List Nat) {i j : Nat} (a : Nat) (h : i ≠ j) :
    (l.set i a).getD j 0 = l.getD j 0 := by
  simp [List.getD, List.getElem?_set_ne h]

theorem BloomFilter.get_bit_set_bit_self {bf : BloomFilter} (i : Nat)
    (hwf : bf.bits.length = (bf.m_bits + 7) / 8) (hm : 0 < bf.m_bits) :
    (bf.set_bit i).get_bit i = true := by
  rw [get_bit_eq_testBit, set_bit_m_bits, set_bit_bits]
  have hidx : i % bf.m_bits < bf.m_bits := Nat.mod_lt _ hm
  have hpos : i % bf.m_bits / 8 < bf.bits.length := by
    rw [hwf]
    omega
  rw [getD_set_self _ _ _ hpos]
  rw [Nat.one_shiftLeft]
  simp [Nat.testBit_or, Nat.testBit_two_pow_self]

theorem BloomFilter.get_bit_set_bit_of_get_bit {bf : BloomFilter} {p : Nat} (q : Nat)
    (h : bf.get_bit p = true) : (bf.set_bit q).get_bit p = true := by
  rw [get_bit_eq_testBit] at h
  rw [get_bit_eq_testBit, set_bit_m_bits, set_bit_bits]
  by_cases heq : p % bf.m_bits / 8 = q % bf.m_bits / 8
  · by_cases hlt : q % bf.m_bits / 8 < bf.bits.length
    · rw [heq, getD_set_self _ _ _ hlt]
      rw [heq] at h
      rw [Nat.one_shiftLeft]
      simp only [Nat.testBit_or]
      rw [h]
      simp
    · rw [List.set_eq_of_length_le (by omega)]
      exact h
  · rw [getD_set_ne _ _ (fun hq => heq hq.symm)]
    exact h

theorem BloomFilter.get_bit_fold_set_bit {bf : BloomFilter} {p : Nat} (l : List Nat)
    (g : Nat → Nat) (h : bf.get_bit p = true) :
    (l.foldl (fun b i => b.set_bit (g i)) bf).get_bit p = true := by
  induction l generalizing bf with
  | nil => exact h
  | cons x xs ih =>
    simp only [List.foldl_cons]
    exact ih (get_bit_set_bit_of_get_bit (g x) h)

theorem BloomFilter.fold_set_bit_wf {bf : BloomFilter} (l : List Nat) (g : Nat → Nat)
    (hwf : bf.bits.length = (bf.m_bits + 7) / 8) :
    (l.foldl (fun b i => b.set_bit (g i)) bf).bits.length =
      ((l.foldl (fun b i => b.set_bit (g i)) bf).m_bits + 7) / 8 := by
  induction l generalizing bf with
  | nil => exact hwf
  | cons x xs ih =>
    simp only [List.foldl_cons]
    exact ih (by rw [set_bit_bits_length, set_bit_m_bits]; exact hwf)

theorem BloomFilter.fold_set_bit_m_bits (bf : BloomFilter) (l : List Nat) (g : Nat → Nat) :
    (l.foldl (fun b i => b.set_bit (g i)) bf).m_bits = bf.m_bits := by
  induction l generalizing bf with
  | nil => rfl
  | cons x xs ih =>
    simp only [List.foldl_cons]
    rw [ih, set_bit_m_bits]

theorem BloomFilter.fold_set_bit_k_hashes (bf : BloomFilter) (l : List Nat) (g : Nat → Nat) :
    (l.foldl (fun b i => b.set_bit (g i)) bf).k_hashes = bf.k_hashes := by
  induction l generalizing bf with
  | nil => rfl
  | cons x xs ih =>
    simp only [List.foldl_cons]
    rw [ih, set_bit_k_hashes]

theorem BloomFilter.get_bit_fold_set_bit_mem {bf : BloomFilter} {p : Nat} {l : List Nat}
    (g : Nat → Nat) (hp : p ∈ l)
    (hwf : bf.bits.length = (bf.m_bits + 7) / 8) (hm : 0 < bf.m_bits) :
    (l.foldl (fun b i => b.set_bit (g i)) bf).get_bit (g p) = true := by
  induction l generalizing bf with
  | nil => cases hp
  | cons x xs ih =>
    simp only [List.foldl_cons]
    rcases List.mem_cons.mp hp with hx | hxs
    · subst hx
      exact get_bit_fold_set_bit xs g
        (get_bit_set_bit_self _ hwf hm)
    · exact ih hxs (by rw [set_bit_bits_length, set_bit_m_bits]; exact hwf)
        (by rw [set_bit_m_bits]; exact hm)

/-- After `add key`, every probe bit that `possibly_contains key` checks is set. -/
theorem BloomFilter.possibly_contains_add (bf : BloomFilter) (key : Str)
    (hwf : bf.bits.length = (bf.m_bits + 7) / 8) :
    (bf.add key).possibly_contains key = true := by
  unfold add possibly_contains
  by_cases hdeg : bf.m_bits = 0 ∨ bf.k_hashes = 0
  · rw [if_pos hdeg, if_pos hdeg]
  · rw [if_neg hdeg]
    simp only [fold_set_bit_m_bits, fold_set_bit_k_hashes]
    rw [if_neg hdeg]
    rw [List.all_eq_true]
    intro i hi
    exact get_bit_fold_set_bit_mem _ hi hwf (by omega)

/-! ## Write-ahead log (`wal.cpp`: `WAL::append_record`, `WAL::replay`) -/

/-- A logical WAL operation (what `replay` hands to `apply_put`/`apply_delete`). -/
inductive WRec where
  | put (key value : Str)
  | del (key : Str)
deriving Repr, DecidableEq

/-- Bytes written by `WAL::append_record(type, key, value)`: packed 17-byte
header `total_len:u32 | type:u8 | ksize:u32 | vsize:u32 | checksum:u32`, then
`ksize` key bytes, then (for puts with nonzero `vsize`) `vsize` value bytes.
The casts to `uint32_t` are the `% 2^32` reductions. -/
def append_record_bytes (type : Nat) (k : Str) (v : Option Str) : List Nat :=
  let ksize := k.length % 2 ^ 32
  let vsize := match v with | some s => s.length % 2 ^ 32 | none => 0
  let kbytes := k.take ksize
  let vbytes := match v with
    | some s => if vsize ≠ 0 then s.take vsize else []
    | none => []
  let payload := type :: (le32 ksize ++ le32 vsize ++ kbytes ++ vbytes)
  le32 ((17 + ksize + vsize) % 2 ^ 32) ++ [type] ++ le32 ksize ++ le32 vsize ++
    le32 (fnv1a32 payload) ++ kbytes ++ vbytes

/-- `WAL::append_put` / `WAL::append_delete` record encodings. -/
def encodeWalRecord : WRec → List Nat
  | .put k v => append_record_bytes 1 k (some v)
  | .del k => append_record_bytes 2 k none

/-- `WAL::replay` over the log's byte content: the list of operations applied
to the engine, in order. Each iteration reads the 17-byte header, runs the
sanity checks, reads key (and value for puts), recomputes the checksum, and
stops cleanly on any failure. -/
def replayBytes (bytes : List Nat) : List WRec :=
  if h17 : bytes.length < 17 then []
  else
    let total_len := leVal (bytes.take 4)
    let type := bytes.getD 4 0
    let ksize := leVal ((bytes.drop 5).take 4)
    let vsize := leVal ((bytes.drop 9).take 4)
    let checksum := leVal ((bytes.drop 13).take 4)
    if total_len < 17 then []
    else if type ≠ 1 ∧ type ≠ 2 then []
    else if type = 2 ∧ vsize ≠ 0 then []
    else if total_len ≠ 17 + ksize + vsize then []
    else if bytes.length < 17 + ksize then []
    else
      let key := (bytes.drop 17).take ksize
      if type = 1 then
        if hv : bytes.length < 17 + ksize + vsize then []
        else
          let value := (bytes.drop (17 + ksize)).take vsize
          let chk := fnv1a32 (type :: (le32 ksize ++ le32 vsize ++ key ++
            (if vsize ≠ 0 then value else [])))
          if chk ≠ checksum then []
          else .put key value :: replayBytes (bytes.drop (17 + ksize + vsize))
      else
        let chk := fnv1a32 (type :: (le32 ksize ++ le32 vsize ++ key))
        if chk ≠ checksum then []
        else .del key :: replayBytes (bytes.drop (17 + ksize))
termination_by bytes.length
decreasing_by
  · simp only [List.length_drop]
    omega
  · simp only [List.length_drop]
    omega

/-- On-disk size of one WAL record (full header plus payload). -/
def walSize : WRec → Nat
  | .put k v => 17 + k.length + v.length
  | .del k => 17 + k.length

/-- How many leading records of `rs` are wholly contained in `n` bytes. -/
def numFull (rs : List WRec) (n : Nat) : Nat :=
  match rs with
  | [] => 0
  | r :: rest => if walSize r ≤ n then numFull rest (n - walSize r) + 1 else 0

/-- Sizes the `uint32_t` casts in `append_record` do not truncate. -/
def wrecWF : WRec → Prop
  | .put k v => 17 + k.length + v.length < 2 ^ 32
  | .del k => 17 + k.length < 2 ^ 32

instance : DecidablePred wrecWF := fun r => by
  cases r <;> (unfold wrecWF; infer_instance)

theorem fnvStep32_lt (h b : Nat) : fnvStep32 h b < 2 ^ 32 :=
  Nat.mod_lt _ (by norm_num)

theorem fnvFold32_lt (h : Nat) (l : List Nat) (hh : h < 2 ^ 32) :
    fnvFold32 h l < 2 ^ 32 := by
  induction l generalizing h with
  | nil => exact hh
  | cons b bs ih => exact ih _ (fnvStep32_lt _ _)

theorem fnv1a32_lt (l : List Nat) : fnv1a32 l < 2 ^ 32 :=
  fnvFold32_lt _ _ (by norm_num)

/-- Canonical right-nested shape of an appended WAL record followed by the
rest `t` of the log. -/
def hdrForm (A ty ks vs ck : Nat) (k v t : List Nat) : List Nat :=
  le32 A ++ ty :: (le32 ks ++ (le32 vs ++ (le32 ck ++ (k ++ (v ++ t)))))

theorem hdrForm_length (A ty ks vs ck : Nat) (k v t : List Nat) :
    (hdrForm A ty ks vs ck k v t).length = 17 + k.length + v.length + t.length := by
  simp [hdrForm, le32]
  omega

theorem hdrForm_take4 (A ty ks vs ck : Nat) (k v t : List Nat) :
    (hdrForm A ty ks vs ck k v t).take 4 = le32 A := by
  simp [hdrForm, le32]

theorem hdrForm_getD4 (A ty ks vs ck : Nat) (k v t : List Nat) :
    (hdrForm A ty ks vs ck k v t).getD 4 0 = ty := by
  simp [hdrForm, le32, List.getD]

theorem hdrForm_drop5_take4 (A ty ks vs ck : Nat) (k v t : List Nat) :
    ((hdrForm A ty ks vs ck k v t).drop 5).take 4 = le32 ks := by
  simp [hdrForm, le32]

theorem hdrForm_drop9_take4 (A ty ks vs ck : Nat) (k v t : List Nat) :
    ((hdrForm A ty ks vs ck k v t).drop 9).take 4 = le32 vs := by
  simp [hdrForm, le32]

theorem hdrForm_drop13_take4 (A ty ks vs ck : Nat) (k v t : List Nat) :
    ((hdrForm A ty ks vs ck k v t).drop 13).take 4 = le32 ck := by
  simp [hdrForm, le32]

theorem hdrForm_drop17 (A ty ks vs ck : Nat) (k v t : List Nat) :
    (hdrForm A ty ks vs ck k v t).drop 17 = k ++ (v ++ t) := by
  simp [hdrForm, le32]

theorem hdrForm_drop17k (A ty ks vs ck : Nat) (k v t : List Nat) :
    (hdrForm A ty ks vs ck k v t).drop (17 + k.length) = v ++ t := by
  rw [← List.drop_drop, hdrForm_drop17, List.drop_left]

theorem hdrForm_drop17kv (A ty ks vs ck : Nat) (k v t : List Nat) :
    (hdrForm A ty ks vs ck k v t).drop (17 + k.length + v.length) = t := by
  rw [← List.drop_drop, hdrForm_drop17k, List.drop_left]

/-- The checksum `append_record` computes over `type || ksize || vsize || key
|| value`. -/
def walChk (ty : Nat) (k v : Str) : Nat :=
  fnv1a32 (ty :: (le32 k.length ++ (le32 v.length ++ (k ++ v))))

theorem append_record_bytes_put (k v : Str) (h : 17 + k.length + v.length < 2 ^ 32) :
    append_record_bytes 1 k (some v) =
      hdrForm (17 + k.length + v.length) 1 k.length v.length (walChk 1 k v) k v [] := by
  unfold append_record_bytes hdrForm walChk
  have hk : k.length % 2 ^ 32 = k.length := Nat.mod_eq_of_lt (by omega)
  have hv : v.length % 2 ^ 32 = v.length := Nat.mod_eq_of_lt (by omega)
  by_cases hv0 : v.length = 0
  · have hnil : v = [] := List.eq_nil_of_length_eq_zero hv0
    subst hnil
    have hk2 : k.length % 4294967296 = k.length := by omega
    have ht2 : (17 + k.length) % 4294967296 = 17 + k.length := by omega
    simp [hk2, ht2]
  · simp only [hk, hv, Nat.mod_eq_of_lt h, hv0, ne_eq, not_false_iff, if_pos,
      List.take_length, if_true]
    simp [List.append_assoc]

theorem append_record_bytes_del (k : Str) (h : 17 + k.length < 2 ^ 32) :
    append_record_bytes 2 k none =
      hdrForm (17 + k.length) 2 k.length 0 (walChk 2 k []) k [] [] := by
  unfold append_record_bytes hdrForm walChk
  have hk : k.length % 2 ^ 32 = k.length := Nat.mod_eq_of_lt (by omega)
  simp only [hk]
  rw [Nat.add_zero, Nat.mod_eq_of_lt h]
  simp [List.append_assoc]

theorem hdrForm_append (A ty ks vs ck : Nat) (k v t : List Nat) :
    hdrForm A ty ks vs ck k v [] ++ t = hdrForm A ty ks vs ck k v t := by
  simp [hdrForm]

theorem ite_len_v (v : Str) : (if v.length ≠ 0 then v else []) = v := by
  by_cases h0 : v.length = 0
  · simp [h0, List.eq_nil_of_length_eq_zero h0]
  · simp [h0]

theorem leVal_le32_fnv (l : List Nat) : leVal (le32 (fnv1a32 l)) = fnv1a32 l :=
  leVal_le32 _ (fnv1a32_lt l)

/-- A whole appended record at the head of the log replays to its operation,
and replay continues on the rest. -/
theorem replayBytes_cons (r : WRec) (t : List Nat) (h : wrecWF r) :
    replayBytes (encodeWalRecord r ++ t) = r :: replayBytes t := by
  cases r with
  | put k v =>
    have hwf : 17 + k.length + v.length < 2 ^ 32 := h
    show replayBytes (append_record_bytes 1 k (some v) ++ t) = _
    rw [append_record_bytes_put k v hwf, hdrForm_append]
    rw [replayBytes]
    rw [dif_neg (by rw [hdrForm_length]; omega)]
    simp only [hdrForm_take4, hdrForm_getD4, hdrForm_drop5_take4, hdrForm_drop9_take4,
      hdrForm_drop13_take4, hdrForm_drop17, hdrForm_drop17k, hdrForm_drop17kv,
      hdrForm_length, leVal_le32_fnv,
      leVal_le32 _ (show 17 + k.length + v.length < 2 ^ 32 by omega),
      leVal_le32 _ (show k.length < 2 ^ 32 by omega),
      leVal_le32 _ (show v.length < 2 ^ 32 by omega),
      walChk, List.take_left]
    rw [if_neg (by omega)]
    rw [if_neg (by simp)]
    rw [if_neg (by simp)]
    rw [if_neg (by omega)]
    rw [if_neg (by omega)]
    rw [if_pos True.intro]
    rw [dif_neg (by omega)]
    simp only [List.append_assoc, ite_len_v]
    rw [if_neg (fun hne => hne rfl)]
  | del k =>
    have hwf : 17 + k.length < 2 ^ 32 := h
    show replayBytes (append_record_bytes 2 k none ++ t) = _
    rw [append_record_bytes_del k hwf, hdrForm_append]
    rw [replayBytes]
    rw [dif_neg (by rw [hdrForm_length]; omega)]
    simp only [List.length_nil, List.append_nil, hdrForm_take4, hdrForm_getD4,
      hdrForm_drop5_take4, hdrForm_drop9_take4, hdrForm_drop13_take4, hdrForm_drop17,
      hdrForm_drop17k, hdrForm_drop17kv, hdrForm_length, leVal_le32_fnv,
      leVal_le32 _ (show 17 + k.length < 2 ^ 32 by omega),
      leVal_le32 _ (show k.length < 2 ^ 32 by omega),
      leVal_le32 _ (show (0 : Nat) < 2 ^ 32 by norm_num),
      walChk, List.take_left]
    rw [if_neg (by omega)]
    rw [if_neg (by simp)]
    rw [if_neg (by simp)]
    rw [if_neg (by omega)]
    rw [if_neg (by omega)]
    rw [if_neg (by simp)]
    simp only [List.append_assoc, List.nil_append, List.append_nil]
    rw [if_neg (fun hne => hne rfl)]

theorem getD_take_of_lt (l : List Nat) (i n : Nat) (hi : i < n) :
    (l.take n).getD i 0 = l.getD i 0 := by
  simp [List.getD, List.getElem?_take, hi]

/-- A record truncated anywhere strictly inside it replays to nothing. -/
theorem replayBytes_take (r : WRec) (n : Nat) (h : wrecWF r) (hn : n < walSize r) :
    replayBytes ((encodeWalRecord r).take n) = [] := by
  by_cases h17 : n < 17
  · rw [replayBytes]
    rw [dif_pos (by rw [List.length_take]; omega)]
  · cases r with
    | put k v =>
      have hwf : 17 + k.length + v.length < 2 ^ 32 := h
      have hsz : n < 17 + k.length + v.length := by simpa [walSize] using hn
      show replayBytes ((append_record_bytes 1 k (some v)).take n) = []
      rw [append_record_bytes_put k v hwf]
      set X := hdrForm (17 + k.length + v.length) 1 k.length v.length (walChk 1 k v) k v []
        with hX
      have hXlen : X.length = 17 + k.length + v.length := by
        rw [hX, hdrForm_length]; simp
      have hlen : (X.take n).length = n := by rw [List.length_take]; omega
      have h4 : (X.take n).take 4 = le32 (17 + k.length + v.length) := by
        rw [List.take_take, Nat.min_eq_left (by omega), hX, hdrForm_take4]
      have hg4 : (X.take n).getD 4 0 = 1 := by
        rw [getD_take_of_lt _ _ _ (by omega), hX, hdrForm_getD4]
      have h5 : ((X.take n).drop 5).take 4 = le32 k.length := by
        rw [List.drop_take, List.take_take, Nat.min_eq_left (by omega), hX,
          hdrForm_drop5_take4]
      have h9 : ((X.take n).drop 9).take 4 = le32 v.length := by
        rw [List.drop_take, List.take_take, Nat.min_eq_left (by omega), hX,
          hdrForm_drop9_take4]
      have h13 : ((X.take n).drop 13).take 4 = le32 (walChk 1 k v) := by
        rw [List.drop_take, List.take_take, Nat.min_eq_left (by omega), hX,
          hdrForm_drop13_take4]
      rw [replayBytes]
      rw [dif_neg (by rw [hlen]; omega)]
      simp only [h4, hg4, h5, h9, h13, hlen, walChk, leVal_le32_fnv,
        leVal_le32 _ (show 17 + k.length + v.length < 2 ^ 32 by omega),
        leVal_le32 _ (show k.length < 2 ^ 32 by omega),
        leVal_le32 _ (show v.length < 2 ^ 32 by omega)]
      rw [if_neg (by omega)]
      rw [if_neg (by simp)]
      rw [if_neg (by simp)]
      rw [if_neg (by omega)]
      by_cases hk2 : n < 17 + k.length
      · rw [if_pos hk2]
      · rw [if_neg hk2]
        rw [if_pos True.intro]
        rw [dif_pos (by omega)]
    | del k =>
      have hwf : 17 + k.length < 2 ^ 32 := h
      have hsz : n < 17 + k.length := by simpa [walSize] using hn
      show replayBytes ((append_record_bytes 2 k none).take n) = []
      rw [append_record_bytes_del k hwf]
      set X := hdrForm (17 + k.length) 2 k.length 0 (walChk 2 k []) k [] [] with hX
      have hXlen : X.length = 17 + k.length := by
        rw [hX, hdrForm_length]; simp
      have hlen : (X.take n).length = n := by rw [List.length_take]; omega
      have h4 : (X.take n).take 4 = le32 (17 + k.length) := by
        rw [List.take_take, Nat.min_eq_left (by omega), hX, hdrForm_take4]
      have hg4 : (X.take n).getD 4 0 = 2 := by
        rw [getD_take_of_lt _ _ _ (by omega), hX, hdrForm_getD4]
      have h5 : ((X.take n).drop 5).take 4 = le32 k.length := by
        rw [List.drop_take, List.take_take, Nat.min_eq_left (by omega), hX,
          hdrForm_drop5_take4]
      have h9 : ((X.take n).drop 9).take 4 = le32 0 := by
        rw [List.drop_take, List.take_take, Nat.min_eq_left (by omega), hX,
          hdrForm_drop9_take4]
      have h13 : ((X.take n).drop 13).take 4 = le32 (walChk 2 k []) := by
        rw [List.drop_take, List.take_take, Nat.min_eq_left (by omega), hX,
          hdrForm_drop13_take4]
      rw [replayBytes]
      rw [dif_neg (by rw [hlen]; omega)]
      simp only [h4, hg4, h5, h9, h13, hlen, walChk, leVal_le32_fnv,
        leVal_le32 _ (show 17 + k.length < 2 ^ 32 by omega),
        leVal_le32 _ (show k.length < 2 ^ 32 by omega),
        leVal_le32 _ (show (0 : Nat) < 2 ^ 32 by norm_num)]
      rw [if_neg (by omega)]
      rw [if_neg (by simp)]
      rw [if_neg (by simp)]
      rw [if_neg (by omega)]
      rw [if_pos (by omega)]

theorem replayBytes_nil : replayBytes [] = [] := by
  rw [replayBytes]
  rw [dif_pos (by simp)]

theorem encodeWalRecord_length (r : WRec) (h : wrecWF r) :
    (encodeWalRecord r).length = walSize r := by
  cases r with
  | put k v =>
    show (append_record_bytes 1 k (some v)).length = _
    rw [append_record_bytes_put k v h, hdrForm_length, walSize]
    simp
  | del k =>
    show (append_record_bytes 2 k none).length = _
    rw [append_record_bytes_del k h, hdrForm_length, walSize]
    simp

/-- Replay of the WAL truncated at byte `n` applies exactly the leading records
wholly contained (header, key, value, checksum) in the first `n` bytes. -/
theorem replayBytes_flatten_take (rs : List WRec) (n : Nat) (h : ∀ r ∈ rs, wrecWF r) :
    replayBytes (((rs.map encodeWalRecord).flatten).take n) = rs.take (numFull rs n) := by
  revert h
  induction rs generalizing n with
  | nil =>
    intro h
    simp [numFull, replayBytes_nil]
  | cons r rest ih =>
    intro h
    have hr : wrecWF r := h r (by simp)
    have hrest : ∀ x ∈ rest, wrecWF x := fun x hx => h x (by simp [hx])
    have hlen : (encodeWalRecord r).length = walSize r := encodeWalRecord_length r hr
    simp only [List.map_cons, List.flatten_cons]
    by_cases hle : walSize r ≤ n
    · rw [List.take_append_eq_append_take]
      rw [List.take_of_length_le (by omega)]
      rw [hlen]
      rw [replayBytes_cons r _ hr]
      rw [ih _ hrest]
      rw [numFull, if_pos hle]
      rw [List.take_succ_cons]
    · rw [List.take_append_eq_append_take]
      rw [hlen]
      rw [Nat.sub_eq_zero_of_le (by omega), List.take_zero, List.append_nil]
      rw [replayBytes_take r n hr (by omega)]
      rw [numFull, if_neg hle, List.take_zero]

/-! ## SSTable on-disk format (`main.cpp` bundle, member `SSTable`) -/

/-- `vsize` sentinel for tombstones: `0xFFFFFFFF`. -/
def TOMBSTONE_VSIZE : Nat := 2 ^ 32 - 1

/-- `"HELIOSST"` footer magic. -/
def FOOTER_MAGIC : Nat := 0x48454C494F535354

/-- An SSTable entry: key plus optional value (`none` = tombstone). -/
abbrev Entry := Str × Option Str

/-- Bytes `write_atomic` streams for one entry: `ksize:u32 | vsize:u32 | key |
value` (value omitted for tombstones; `out.write(k.data(), ksize)` emits the
first `ksize = len % 2^32` key bytes, the value is written with its full
`v->size()`). -/
def encodeRecord (e : Entry) : List Nat :=
  let ksize := e.1.length % 2 ^ 32
  let vsize := match e.2 with
    | some v => v.length % 2 ^ 32
    | none => TOMBSTONE_VSIZE
  le32 ksize ++ le32 vsize ++ e.1.take ksize ++
    (match e.2 with
     | some v => if vsize ≠ TOMBSTONE_VSIZE then v else []
     | none => [])

/-- The records region `write_atomic` produces, which is also what the running
FNV-1a-32 checksum is fed. -/
def encodeRegion (entries : List Entry) : List Nat :=
  (entries.map encodeRecord).flatten

/-- The full `.dat` file from `write_atomic`: records region then the 12-byte
footer (magic `u64`, checksum `u32`). -/
def encodeSSTable (entries : List Entry) : List Nat :=
  encodeRegion entries ++ le64 FOOTER_MAGIC ++ le32 (fnv1a32 (encodeRegion entries))

/-- `SSTable::is_valid` on the file's bytes: size at least 12, footer magic
matches, FNV-1a-32 of the first `size - 12` bytes equals the stored checksum. -/
def is_valid (f : List Nat) : Bool :=
  if f.length < 12 then false
  else if leVal ((f.drop (f.length - 12)).take 8) ≠ FOOTER_MAGIC then false
  else decide (fnv1a32 (f.take (f.length - 12)) = leVal ((f.drop (f.length - 4)).take 4))

/-- `SSTable::read_record_at` (member variant): bounds-checked parse of the
record at `off`, `end_` excluding the footer; `pread_all` reads from the whole
file and fails only past end-of-file. -/
def read_record_at (file : List Nat) (endPos off : Nat) : Option (Str × Option Str × Nat) :=
  if off ≥ endPos then none
  else
    match readBytes file off 4, readBytes file (off + 4) 4 with
    | some kb, some vb =>
      let ksize := leVal kb
      let vsize := leVal vb
      if off + 8 + ksize > endPos then none
      else
        match readBytes file (off + 8) ksize with
        | some key =>
          if vsize = TOMBSTONE_VSIZE then some (key, none, off + 8 + ksize)
          else if off + 8 + ksize + vsize > endPos then none
          else
            match readBytes file (off + 8 + ksize) vsize with
            | some val => some (key, some val, off + 8 + ksize + vsize)
            | none => none
        | none => none
    | _, _ => none

/-- Stride of the sparse index. -/
def kIndexStride : Nat := 16

/-- The sparse-index construction scan in the `SSTable` constructor: walk the
records once, keeping `(key, offset)` for every `kIndexStride`-th record. -/
def buildIndexLoop (file : List Nat) (endPos off count : Nat) : List (Str × Nat) :=
  if h : off < endPos then
    match readBytes file off 4, readBytes file (off + 4) 4 with
    | some kb, some vb =>
      let ksize := leVal kb
      let vsize := leVal vb
      if hk : off + 8 + ksize > endPos then []
      else
        match readBytes file (off + 8) ksize with
        | some key =>
          if vsize ≠ TOMBSTONE_VSIZE then
            if hv : off + 8 + ksize + vsize > endPos then []
            else
              (if count % kIndexStride = 0 then [(key, off)] else []) ++
                buildIndexLoop file endPos (off + 8 + ksize + vsize) (count + 1)
          else
            (if count % kIndexStride = 0 then [(key, off)] else []) ++
              buildIndexLoop file endPos (off + 8 + ksize) (count + 1)
        | none => []
    | _, _ => []
  else []
termination_by endPos - off
decreasing_by
  · omega
  · omega

/-- An opened `SSTable` object: validity flag, file bytes, `end_`, sparse
index, bloom sidecar state. -/
structure SST where
  valid : Bool
  file : List Nat
  endPos : Nat
  index : List (Str × Nat)
  bloom : BloomFilter
  bloom_ok : Bool

/-- `BloomFilter::load` of sidecar bytes: header magic/m/k/nbytes then the
packed bytes; any short read, magic mismatch, or `nbytes` disagreement with
the freshly constructed filter fails. -/
def bloomLoad (f : List Nat) : Option BloomFilter :=
  if f.length < 16 then none
  else
    let magic := leVal (f.take 4)
    let m := leVal ((f.drop 4).take 4)
    let k := leVal ((f.drop 8).take 4)
    let nbytes := leVal ((f.drop 12).take 4)
    if magic ≠ 0xB100B100 then none
    else
      let bf := BloomFilter.init m k
      if nbytes ≠ bf.bits.length then none
      else if nbytes = 0 then some bf
      else
        match readBytes f 16 nbytes with
        | some bits => some ⟨bf.m_bits, bf.k_hashes, bits⟩
        | none => none

/-- `BloomFilter::save` sidecar bytes. -/
def bloomSave (bf : BloomFilter) : List Nat :=
  le32 0xB100B100 ++ le32 bf.m_bits ++ le32 bf.k_hashes ++
    le32 (bf.bits.length % 2 ^ 32) ++ bf.bits.take (bf.bits.length % 2 ^ 32)

/-- The bit width `write_atomic` chooses for the table's filter:
`uint32_t(10 n)` bits, or 8 when that is zero. -/
def tableM (entries : List Entry) : Nat :=
  if entries.length * 10 % 2 ^ 32 = 0 then 8 else entries.length * 10 % 2 ^ 32

/-- The per-table bloom filter `write_atomic` builds: `tableM` bits, `k = 7`,
every key added in order. -/
def tableBloom (entries : List Entry) : BloomFilter :=
  (entries.map Prod.fst).foldl BloomFilter.add (BloomFilter.init (tableM entries) 7)

/-- Opening an SSTable (`SSTable::SSTable(path)`): validate, set `end_`, load
the bloom sidecar if well-formed, build the sparse index. -/
def openSST (file sidecar : List Nat) : SST :=
  if ¬ is_valid file then ⟨false, file, 0, [], ⟨0, 0, []⟩, false⟩
  else
    let endPos := file.length - 12
    match bloomLoad sidecar with
    | some bf => ⟨true, file, endPos, buildIndexLoop file endPos 0 0, bf, true⟩
    | none => ⟨true, file, endPos, buildIndexLoop file endPos 0 0, ⟨0, 0, []⟩, false⟩

/-- `std::upper_bound` over the sorted sparse index with comparator
`key < e.key`: index of the first entry whose key exceeds the probe. -/
def upperBoundPos (index : List (Str × Nat)) (key : Str) : Nat :=
  (index.takeWhile (fun e => !(strLt key e.1))).length

/-- The scan start offset `SSTable::get` derives from the sparse index. -/
def startOffset (index : List (Str × Nat)) (key : Str) : Nat :=
  if upperBoundPos index key = 0 then (index.headD ([], 0)).2
  else (index.getD (upperBoundPos index key - 1) ([], 0)).2

theorem read_record_at_some_next {file : List Nat} {endPos off : Nat}
    {k : Str} {v : Option Str} {next : Nat}
    (h : read_record_at file endPos off = some (k, v, next)) :
    off < endPos ∧ off < next := by
  unfold read_record_at at h
  by_cases hoe : off ≥ endPos
  · rw [if_pos hoe] at h; cases h
  · rw [if_neg hoe] at h
    refine ⟨by omega, ?_⟩
    repeat' first
      | split at h
      | simp only [] at h
    all_goals first
      | exact Option.noConfusion h
      | (have hnext := congrArg (fun r : Option (Str × Option Str × Nat) =>
            r.elim 0 (fun p => p.2.2)) h
         simp only [Option.elim_some] at hnext
         omega)

/-- The forward scan inside `SSTable::get`. -/
def sstScan (file : List Nat) (endPos : Nat) (key : Str) (off : Nat) : Option (Option Str) :=
  match h : read_record_at file endPos off with
  | none => none
  | some (k, v, next) =>
    if k = key then some v
    else if strLt key k then none
    else sstScan file endPos key next
termination_by endPos - off
decreasing_by
  have := read_record_at_some_next h
  omega

/-- `SSTable::get`: invalid or empty-index tables answer nothing, the bloom
filter (when loaded) screens, then scan forward from the sparse-index start. -/
def SST.get (t : SST) (key : Str) : Option (Option Str) :=
  if !t.valid || t.index.isEmpty then none
  else if t.bloom_ok && !(t.bloom.possibly_contains key) then none
  else sstScan t.file t.endPos key (startOffset t.index key)

/-- Sizes on which the `uint32_t` casts in `write_atomic` are lossless and the
tombstone sentinel is not impersonated. -/
def entryWF : Entry → Prop
  | (k, some v) => k.length < 2 ^ 32 ∧ v.length < 2 ^ 32 - 1
  | (k, none) => k.length < 2 ^ 32

instance : DecidablePred entryWF := fun e => by
  rcases e with ⟨k, _ | v⟩ <;> (unfold entryWF; infer_instance)

/-- On-disk size of one record. -/
def recSize : Entry → Nat
  | (k, some v) => 8 + k.length + v.length
  | (k, none) => 8 + k.length

theorem encodeRecord_put (k v : Str) (hk : k.length < 2 ^ 32) (hv : v.length < 2 ^ 32 - 1) :
    encodeRecord (k, some v) = le32 k.length ++ (le32 v.length ++ (k ++ v)) := by
  unfold encodeRecord
  have h1 : k.length % 2 ^ 32 = k.length := Nat.mod_eq_of_lt hk
  have h2 : v.length % 2 ^ 32 = v.length := Nat.mod_eq_of_lt (by omega)
  have h3 : v.length ≠ TOMBSTONE_VSIZE := by unfold TOMBSTONE_VSIZE; omega
  simp only [h1, h2, h3, ne_eq, not_false_iff, if_pos, List.take_length, if_true]
  simp [List.append_assoc]

theorem encodeRecord_tomb (k : Str) (hk : k.length < 2 ^ 32) :
    encodeRecord (k, none) = le32 k.length ++ (le32 TOMBSTONE_VSIZE ++ k) := by
  unfold encodeRecord
  have h1 : k.length % 2 ^ 32 = k.length := Nat.mod_eq_of_lt hk
  simp only [h1]
  simp [List.append_assoc]

theorem encodeRecord_length (e : Entry) (h : entryWF e) :
    (encodeRecord e).length = recSize e := by
  rcases e with ⟨k, _ | v⟩
  · rw [encodeRecord_tomb k h, recSize]
    simp [le32]
    omega
  · rw [encodeRecord_put k v h.1 h.2, recSize]
    simp [le32]
    omega

theorem tombstone_lt : TOMBSTONE_VSIZE < 2 ^ 32 := by unfold TOMBSTONE_VSIZE; omega

/-- Parsing at the offset of a whole in-bounds record recovers exactly that
record and steps to the next offset. -/
theorem read_record_at_head (file : List Nat) (endPos off : Nat) (e : Entry) (rest : List Nat)
    (hwf : entryWF e)
    (hend : endPos + 12 = file.length)
    (hfit : off + recSize e ≤ endPos)
    (hdrop : file.drop off = encodeRecord e ++ rest) :
    read_record_at file endPos off = some (e.1, e.2, off + recSize e) := by
  have hoff : off ≤ file.length := by omega
  rcases e with ⟨k, v⟩
  have hk : k.length < 2 ^ 32 := by
    rcases v with _ | v
    · exact hwf
    · exact hwf.1
  have hsz : 8 + k.length ≤ recSize (k, v) := by
    rcases v with _ | v
    · exact Nat.le_refl _
    · show 8 + k.length ≤ 8 + k.length + v.length
      omega
  unfold read_record_at
  rw [if_neg (by omega)]
  rcases v with _ | v
  · -- tombstone record
    rw [encodeRecord_tomb k hk] at hdrop
    simp only [List.append_assoc] at hdrop
    have r1 : readBytes file off 4 = some (le32 k.length) := by
      have := readBytes_of_drop hoff hdrop
      rwa [le32_length] at this
    have hd4 : file.drop (off + 4) = le32 TOMBSTONE_VSIZE ++ (k ++ rest) := by
      rw [← List.drop_drop, hdrop, List.drop_left' (le32_length _)]
    have r2 : readBytes file (off + 4) 4 = some (le32 TOMBSTONE_VSIZE) := by
      have := readBytes_of_drop (by omega) hd4
      rwa [le32_length] at this
    have hd8 : file.drop (off + 8) = k ++ rest := by
      have : off + 8 = (off + 4) + 4 := by omega
      rw [this, ← List.drop_drop, hd4, List.drop_left' (le32_length _)]
    have r3 : readBytes file (off + 8) k.length = some k := by
      exact readBytes_of_drop (by omega) hd8
    have hrs : recSize (k, none) = 8 + k.length := rfl
    have hkbound : ¬ (off + 8 + k.length > endPos) := by omega
    rw [r1, r2]
    simp [leVal_le32 _ hk, leVal_le32 _ tombstone_lt, r3, hkbound, hrs, Nat.add_assoc]
    all_goals omega
  · -- put record
    have hv : v.length < 2 ^ 32 - 1 := hwf.2
    rw [encodeRecord_put k v hk hv] at hdrop
    simp only [List.append_assoc] at hdrop
    have r1 : readBytes file off 4 = some (le32 k.length) := by
      have := readBytes_of_drop hoff hdrop
      rwa [le32_length] at this
    have hd4 : file.drop (off + 4) = le32 v.length ++ (k ++ (v ++ rest)) := by
      rw [← List.drop_drop, hdrop, List.drop_left' (le32_length _)]
    have r2 : readBytes file (off + 4) 4 = some (le32 v.length) := by
      have := readBytes_of_drop (by omega) hd4
      rwa [le32_length] at this
    have hd8 : file.drop (off + 8) = k ++ (v ++ rest) := by
      have : off + 8 = (off + 4) + 4 := by omega
      rw [this, ← List.drop_drop, hd4, List.drop_left' (le32_length _)]
    have r3 : readBytes file (off + 8) k.length = some k := by
      exact readBytes_of_drop (by omega) hd8
    have hd8k : file.drop (off + 8 + k.length) = v ++ rest := by
      rw [← List.drop_drop, hd8, List.drop_left]
    have r4 : readBytes file (off + 8 + k.length) v.length = some v := by
      exact readBytes_of_drop (by omega) hd8k
    have hrs : recSize (k, some v) = 8 + k.length + v.length := rfl
    have hkbound : ¬ (off + 8 + k.length > endPos) := by omega
    have htomb : ¬ (v.length = TOMBSTONE_VSIZE) := by
      have ht : TOMBSTONE_VSIZE = 2 ^ 32 - 1 := rfl
      omega
    have hbound : ¬ (off + 8 + k.length + v.length > endPos) := by omega
    have ht2 : TOMBSTONE_VSIZE = 2 ^ 32 - 1 := rfl
    have r4' : readBytes file (off + (8 + k.length)) v.length = some v := by
      rw [show off + (8 + k.length) = off + 8 + k.length from by omega]
      exact r4
    rw [r1, r2]
    simp [leVal_le32 _ hk, leVal_le32 _ (show v.length < 2 ^ 32 by omega), r3, r4, r4',
      htomb, hbound, hkbound, hrs, Nat.add_assoc]
    all_goals omega

theorem read_record_at_end (file : List Nat) (endPos off : Nat) (h : off ≥ endPos) :
    read_record_at file endPos off = none := by
  unfold read_record_at
  rw [if_pos h]

theorem sstScan_eq_none {file : List Nat} {endPos off : Nat} (key : Str)
    (h : read_record_at file endPos off = none) :
    sstScan file endPos key off = none := by
  rw [sstScan]
  split
  · rfl
  · rename_i k' v' next' heq
    rw [h] at heq
    exact Option.noConfusion heq

theorem sstScan_eq_some {file : List Nat} {endPos off : Nat} (key : Str)
    {k : Str} {v : Option Str} {next : Nat}
    (h : read_record_at file endPos off = some (k, v, next)) :
    sstScan file endPos key off =
      if k = key then some v
      else if strLt key k then none
      else sstScan file endPos key next := by
  rw [sstScan]
  split
  · rename_i heq
    rw [h] at heq
    exact Option.noConfusion heq
  · rename_i k' v' next' heq
    rw [h] at heq
    injection heq with heq2
    obtain ⟨rfl, rfl, rfl⟩ : k = k' ∧ v = v' ∧ next = next' := by
      simpa [Prod.ext_iff] using heq2
    rfl

/-- What the forward scan computes, at the level of the entry list. -/
def lookupScan : List Entry → Str → Option (Option Str)
  | [], _ => none
  | e :: rest, key =>
    if e.1 = key then some e.2
    else if strLt key e.1 then none
    else lookupScan rest key

/-- Scanning the encoded region from the offset of a suffix of the entries
computes the sorted lookup over that suffix. -/
theorem sstScan_encoded (suffix : List Entry) (file tail : List Nat) (endPos off : Nat)
    (key : Str)
    (hwf : ∀ e ∈ suffix, entryWF e)
    (hend : endPos + 12 = file.length)
    (htail : tail.length = 12)
    (hdrop : file.drop off = (suffix.map encodeRecord).flatten ++ tail) :
    sstScan file endPos key off = lookupScan suffix key := by
  induction suffix generalizing off with
  | nil =>
    have hlen := congrArg List.length hdrop
    simp [htail] at hlen
    have hoff : off ≥ endPos := by omega
    rw [sstScan_eq_none key (read_record_at_end _ _ _ hoff), lookupScan]
  | cons e rest ih =>
    have hwfe : entryWF e := hwf e (by simp)
    have hlen := congrArg List.length hdrop
    simp [htail, encodeRecord_length e hwfe] at hlen
    simp only [List.map_cons, List.flatten_cons, List.append_assoc] at hdrop
    have hread : read_record_at file endPos off = some (e.1, e.2, off + recSize e) :=
      read_record_at_head file endPos off e _ hwfe hend (by omega) hdrop
    rw [sstScan_eq_some key hread, lookupScan]
    by_cases h1 : e.1 = key
    · rw [if_pos h1, if_pos h1]
    · rw [if_neg h1, if_neg h1]
      by_cases h2 : strLt key e.1
      · rw [if_pos h2, if_pos h2]
      · rw [if_neg h2, if_neg h2]
        exact ih (off + recSize e) (fun x hx => hwf x (by simp [hx]))
          (by rw [← List.drop_drop, hdrop, List.drop_left' (encodeRecord_length e hwfe)])

/-- Entry-level description of the sparse index the constructor scan builds:
keep `(key, offset)` whenever the running record count hits the stride. -/
def indexSpec : List Entry → Nat → Nat → List (Str × Nat)
  | [], _, _ => []
  | e :: rest, off, c =>
    (if c % kIndexStride = 0 then [(e.1, off)] else []) ++
      indexSpec rest (off + recSize e) (c + 1)

/-- Keys of the entries annotated with their record offsets. -/
def entriesWithOff : List Entry → Nat → List (Str × Nat)
  | [], _ => []
  | e :: rest, off => (e.1, off) :: entriesWithOff rest (off + recSize e)

theorem indexSpec_sublist (entries : List Entry) (off c : Nat) :
    (indexSpec entries off c).Sublist (entriesWithOff entries off) := by
  induction entries generalizing off c with
  | nil => exact List.Sublist.refl _
  | cons e rest ih =>
    rw [indexSpec, entriesWithOff]
    by_cases hc : c % kIndexStride = 0
    · rw [if_pos hc]
      exact (ih _ _).cons₂ _
    · rw [if_neg hc]
      exact (ih _ _).cons _

/-- The constructor scan over an encoded region builds exactly `indexSpec`. -/
theorem buildIndexLoop_encoded (suffix : List Entry) (file tail : List Nat)
    (endPos off c : Nat)
    (hwf : ∀ e ∈ suffix, entryWF e)
    (hend : endPos + 12 = file.length)
    (htail : tail.length = 12)
    (hdrop : file.drop off = (suffix.map encodeRecord).flatten ++ tail) :
    buildIndexLoop file endPos off c = indexSpec suffix off c := by
  induction suffix generalizing off c with
  | nil =>
    have hlen := congrArg List.length hdrop
    simp [htail] at hlen
    rw [buildIndexLoop, indexSpec]
    rw [dif_neg (by omega)]
  | cons e rest ih =>
    have hwfe : entryWF e := hwf e (by simp)
    have hlen := congrArg List.length hdrop
    simp [htail, encodeRecord_length e hwfe] at hlen
    simp only [List.map_cons, List.flatten_cons, List.append_assoc] at hdrop
    have hoff : off ≤ file.length := by omega
    have hsz8 : 8 ≤ recSize e := by
      rcases e with ⟨k, _ | v⟩
      · exact Nat.le_add_right 8 _
      · show 8 ≤ 8 + k.length + v.length
        omega
    have hfit : off + recSize e ≤ endPos := by omega
    have hrest : file.drop (off + recSize e) =
        (rest.map encodeRecord).flatten ++ tail := by
      rw [← List.drop_drop, hdrop, List.drop_left' (encodeRecord_length e hwfe)]
    rcases e with ⟨k, v⟩
    have hk : k.length < 2 ^ 32 := by
      rcases v with _ | v
      · exact hwfe
      · exact hwfe.1
    rw [buildIndexLoop, indexSpec]
    rw [dif_pos (by omega)]
    rcases v with _ | v
    · -- tombstone entry
      have hrs : recSize (k, (none : Option Str)) = 8 + k.length := rfl
      rw [encodeRecord_tomb k hk] at hdrop
      simp only [List.append_assoc] at hdrop
      have r1 : readBytes file off 4 = some (le32 k.length) := by
        have := readBytes_of_drop hoff hdrop
        rwa [le32_length] at this
      have hd4 : file.drop (off + 4) = le32 TOMBSTONE_VSIZE ++ (k ++ ((rest.map encodeRecord).flatten ++ tail)) := by
        rw [← List.drop_drop, hdrop, List.drop_left' (le32_length _)]
      have r2 : readBytes file (off + 4) 4 = some (le32 TOMBSTONE_VSIZE) := by
        have := readBytes_of_drop (by omega) hd4
        rwa [le32_length] at this
      have hd8 : file.drop (off + 8) = k ++ ((rest.map encodeRecord).flatten ++ tail) := by
        have h8 : off + 8 = (off + 4) + 4 := by omega
        rw [h8, ← List.drop_drop, hd4, List.drop_left' (le32_length _)]
      have r3 : readBytes file (off + 8) k.length = some k := by
        exact readBytes_of_drop (by omega) hd8
      have hihs : buildIndexLoop file endPos (off + 8 + k.length) (c + 1) =
          indexSpec rest (off + recSize (k, (none : Option Str))) (c + 1) := by
        rw [show off + 8 + k.length = off + recSize (k, (none : Option Str)) from by
          rw [hrs]; omega]
        exact ih _ _ (fun x hx => hwf x (by simp [hx])) hrest
      have hihs2 : buildIndexLoop file endPos (off + (8 + k.length)) (c + 1) =
          indexSpec rest (off + recSize (k, (none : Option Str))) (c + 1) := by
        rw [show off + (8 + k.length) = off + 8 + k.length from by omega]
        exact hihs
      rw [r1, r2]
      simp only [leVal_le32 _ hk, leVal_le32 _ tombstone_lt]
      rw [dif_neg (by omega)]
      simp [r3, hihs, hihs2, hrs, Nat.add_assoc]
    · -- value entry
      have hv : v.length < 2 ^ 32 - 1 := hwfe.2
      have hrs : recSize (k, some v) = 8 + k.length + v.length := rfl
      have ht2 : TOMBSTONE_VSIZE = 2 ^ 32 - 1 := rfl
      rw [encodeRecord_put k v hk hv] at hdrop
      simp only [List.append_assoc] at hdrop
      have r1 : readBytes file off 4 = some (le32 k.length) := by
        have := readBytes_of_drop hoff hdrop
        rwa [le32_length] at this
      have hd4 : file.drop (off + 4) = le32 v.length ++ (k ++ (v ++ ((rest.map encodeRecord).flatten ++ tail))) := by
        rw [← List.drop_drop, hdrop, List.drop_left' (le32_length _)]
      have r2 : readBytes file (off + 4) 4 = some (le32 v.length) := by
        have := readBytes_of_drop (by omega) hd4
        rwa [le32_length] at this
      have hd8 : file.drop (off + 8) = k ++ (v ++ ((rest.map encodeRecord).flatten ++ tail)) := by
        have h8 : off + 8 = (off + 4) + 4 := by omega
        rw [h8, ← List.drop_drop, hd4, List.drop_left' (le32_length _)]
      have r3 : readBytes file (off + 8) k.length = some k := by
        exact readBytes_of_drop (by omega) hd8
      have hihs : buildIndexLoop file endPos (off + 8 + k.length + v.length) (c + 1) =
          indexSpec rest (off + recSize (k, some v)) (c + 1) := by
        rw [show off + 8 + k.length + v.length = off + recSize (k, some v) from by
          rw [hrs]; omega]
        exact ih _ _ (fun x hx => hwf x (by simp [hx])) hrest
      have hihs2 : buildIndexLoop file endPos (off + (8 + (k.length + v.length))) (c + 1) =
          indexSpec rest (off + recSize (k, some v)) (c + 1) := by
        rw [show off + (8 + (k.length + v.length)) = off + 8 + k.length + v.length from by
          omega]
        exact hihs
      have htomb : ¬ (v.length = TOMBSTONE_VSIZE) := by omega
      have hbound : ¬ (off + 8 + k.length + v.length > endPos) := by omega
      rw [r1, r2]
      simp only [leVal_le32 _ hk, leVal_le32 _ (show v.length < 2 ^ 32 by omega)]
      rw [dif_neg (by omega)]
      simp [r3, htomb, hbound, hihs, hihs2, hrs, Nat.add_assoc]
      all_goals omega

theorem lookupScan_found (l : List Entry) (key : Str) (v : Option Str)
    (hs : l.Pairwise (fun a b => strLt a.1 b.1 = true)) (hmem : (key, v) ∈ l) :
    lookupScan l key = some v := by
  induction l with
  | nil => cases hmem
  | cons e rest ih =>
    rw [lookupScan]
    rcases List.mem_cons.mp hmem with he | hr
    · cases he
      rw [if_pos rfl]
    · have hlt : strLt e.1 key = true := by
        simpa using (List.pairwise_cons.mp hs).1 (key, v) hr
      have hne : e.1 ≠ key := by
        intro hkk
        rw [hkk, strLt_irrefl] at hlt
        cases hlt
      rw [if_neg hne, if_neg (by simp [strLt_asymm hlt])]
      exact ih (List.pairwise_cons.mp hs).2 hr

theorem lookupScan_not_mem (l : List Entry) (key : Str)
    (h : ∀ e ∈ l, e.1 ≠ key) : lookupScan l key = none := by
  induction l with
  | nil => rfl
  | cons e rest ih =>
    rw [lookupScan, if_neg (h e (by simp))]
    by_cases h2 : strLt key e.1 = true
    · rw [if_pos h2]
    · rw [if_neg h2]
      exact ih (fun x hx => h x (by simp [hx]))

theorem entriesWithOff_mem_split (entries : List Entry) (off0 : Nat) (s : Str) (o : Nat)
    (h : (s, o) ∈ entriesWithOff entries off0) :
    ∃ pre v suf, entries = pre ++ (s, v) :: suf ∧ o = off0 + (pre.map recSize).sum := by
  induction entries generalizing off0 with
  | nil => cases h
  | cons e rest ih =>
    rw [entriesWithOff] at h
    rcases List.mem_cons.mp h with he | hr
    · refine ⟨[], e.2, rest, ?_, ?_⟩
      · have h1 : e.1 = s := congrArg Prod.fst he.symm
        simp [← h1]
      · have h2 : off0 = o := congrArg Prod.snd he.symm
        simp [h2]
    · obtain ⟨pre, v, suf, hsplit, hoff⟩ := ih (off0 + recSize e) hr
      exact ⟨e :: pre, v, suf, by simp [hsplit], by simp [hoff]; omega⟩

theorem entriesWithOff_mem_key (entries : List Entry) (off0 : Nat) (x : Str × Nat)
    (h : x ∈ entriesWithOff entries off0) : ∃ f ∈ entries, x.1 = f.1 := by
  induction entries generalizing off0 with
  | nil => cases h
  | cons e rest ih =>
    rw [entriesWithOff] at h
    rcases List.mem_cons.mp h with he | hr
    · exact ⟨e, by simp, by rw [he]⟩
    · obtain ⟨f, hf, hx⟩ := ih (off0 + recSize e) hr
      exact ⟨f, by simp [hf], hx⟩

theorem entriesWithOff_pairwise (entries : List Entry) (off0 : Nat)
    (hs : entries.Pairwise (fun a b => strLt a.1 b.1 = true)) :
    (entriesWithOff entries off0).Pairwise (fun a b => strLt a.1 b.1 = true) := by
  induction entries generalizing off0 with
  | nil => exact List.Pairwise.nil
  | cons e rest ih =>
    rw [entriesWithOff, List.pairwise_cons]
    refine ⟨?_, ih _ (List.pairwise_cons.mp hs).2⟩
    intro x hx
    obtain ⟨f, hf, hxf⟩ := entriesWithOff_mem_key rest _ x hx
    rw [hxf]
    exact (List.pairwise_cons.mp hs).1 f hf

theorem regionLen_eq (l : List Entry) (hwf : ∀ e ∈ l, entryWF e) :
    ((l.map encodeRecord).flatten).length = (l.map recSize).sum := by
  induction l with
  | nil => rfl
  | cons e rest ih =>
    simp only [List.map_cons, List.flatten_cons, List.length_append, List.sum_cons]
    rw [encodeRecord_length e (hwf e (by simp)), ih (fun x hx => hwf x (by simp [hx]))]

/-! Preservation facts for `BloomFilter.add` and key membership. -/

theorem BloomFilter.fold_set_bit_bits_length (bf : BloomFilter) (l : List Nat)
    (g : Nat → Nat) :
    (l.foldl (fun b i => b.set_bit (g i)) bf).bits.length = bf.bits.length := by
  induction l generalizing bf with
  | nil => rfl
  | cons x xs ih =>
    simp only [List.foldl_cons]
    rw [ih, set_bit_bits_length]

theorem BloomFilter.add_m_bits (bf : BloomFilter) (key : Str) :
    (bf.add key).m_bits = bf.m_bits := by
  unfold add
  split
  · rfl
  · exact fold_set_bit_m_bits _ _ _

theorem BloomFilter.add_k_hashes (bf : BloomFilter) (key : Str) :
    (bf.add key).k_hashes = bf.k_hashes := by
  unfold add
  split
  · rfl
  · exact fold_set_bit_k_hashes _ _ _

theorem BloomFilter.add_bits_length (bf : BloomFilter) (key : Str) :
    (bf.add key).bits.length = bf.bits.length := by
  unfold add
  split
  · rfl
  · exact fold_set_bit_bits_length _ _ _

theorem BloomFilter.possibly_contains_add_mono (bf : BloomFilter) (key other : Str)
    (h : bf.possibly_contains key = true) :
    (bf.add other).possibly_contains key = true := by
  by_cases hdeg : bf.m_bits = 0 ∨ bf.k_hashes = 0
  · unfold add
    rw [if_pos hdeg]
    exact h
  · unfold possibly_contains at h ⊢
    rw [if_neg hdeg] at h
    simp only [add_m_bits, add_k_hashes]
    rw [if_neg hdeg]
    rw [List.all_eq_true] at h ⊢
    intro i hi
    have hgb := h i hi
    unfold add
    rw [if_neg hdeg]
    simp only
    exact BloomFilter.get_bit_fold_set_bit (List.range bf.k_hashes)
      (fun i => probeIdx (hash64 other seedA) (hash64 other seedB ||| 1) bf.m_bits i)
      hgb

theorem BloomFilter.possibly_contains_foldl_add_mono (ks : List Str) (bf : BloomFilter)
    (key : Str) (h : bf.possibly_contains key = true) :
    (ks.foldl BloomFilter.add bf).possibly_contains key = true := by
  induction ks generalizing bf with
  | nil => exact h
  | cons y ys ih =>
    simp only [List.foldl_cons]
    exact ih _ (possibly_contains_add_mono _ _ _ h)

theorem BloomFilter.possibly_contains_foldl_add (ks : List Str) (bf : BloomFilter)
    (key : Str)
    (hwfb : bf.bits.length = (bf.m_bits + 7) / 8) (hmem : key ∈ ks) :
    (ks.foldl BloomFilter.add bf).possibly_contains key = true := by
  induction ks generalizing bf with
  | nil => cases hmem
  | cons x xs ih =>
    simp only [List.foldl_cons]
    rcases List.mem_cons.mp hmem with hx | hxs
    · subst hx
      exact possibly_contains_foldl_add_mono xs _ key
        (possibly_contains_add bf key hwfb)
    · exact ih (bf.add x) (by rw [add_bits_length, add_m_bits]; exact hwfb) hxs

theorem foldl_add_m_bits (ks : List Str) (bf : BloomFilter) :
    (ks.foldl BloomFilter.add bf).m_bits = bf.m_bits := by
  induction ks generalizing bf with
  | nil => rfl
  | cons x xs ih =>
    simp only [List.foldl_cons]
    rw [ih, BloomFilter.add_m_bits]

theorem foldl_add_k_hashes (ks : List Str) (bf : BloomFilter) :
    (ks.foldl BloomFilter.add bf).k_hashes = bf.k_hashes := by
  induction ks generalizing bf with
  | nil => rfl
  | cons x xs ih =>
    simp only [List.foldl_cons]
    rw [ih, BloomFilter.add_k_hashes]

theorem foldl_add_bits_length (ks : List Str) (bf : BloomFilter) :
    (ks.foldl BloomFilter.add bf).bits.length = bf.bits.length := by
  induction ks generalizing bf with
  | nil => rfl
  | cons x xs ih =>
    simp only [List.foldl_cons]
    rw [ih, BloomFilter.add_bits_length]

theorem tableM_pos (entries : List Entry) : 0 < tableM entries := by
  rw [tableM]
  generalize entries.length * 10 % 2 ^ 32 = x
  rcases Nat.eq_zero_or_pos x with h | h
  · subst h
    simp
  · rw [if_neg (by omega)]
    omega

theorem tableM_lt (entries : List Entry) : tableM entries < 2 ^ 32 := by
  rw [tableM]
  have hx : entries.length * 10 % 2 ^ 32 < 2 ^ 32 := Nat.mod_lt _ (by norm_num)
  generalize hg : entries.length * 10 % 2 ^ 32 = x at *
  rcases Nat.eq_zero_or_pos x with h | h
  · subst h
    norm_num
  · rw [if_neg (by omega)]
    omega

theorem init_nondegenerate (m k : Nat) (hm : 0 < m) (hk : 0 < k) :
    BloomFilter.init m k = ⟨m, k, List.replicate ((m + 7) / 8) 0⟩ := by
  unfold BloomFilter.init
  rw [if_neg (by omega)]

theorem tableBloom_m_bits (entries : List Entry) :
    (tableBloom entries).m_bits = tableM entries := by
  unfold tableBloom
  rw [foldl_add_m_bits, init_nondegenerate _ _ (tableM_pos entries) (by norm_num)]

theorem tableBloom_k_hashes (entries : List Entry) :
    (tableBloom entries).k_hashes = 7 := by
  unfold tableBloom
  rw [foldl_add_k_hashes, init_nondegenerate _ _ (tableM_pos entries) (by norm_num)]

theorem tableBloom_bits_length (entries : List Entry) :
    (tableBloom entries).bits.length = (tableM entries + 7) / 8 := by
  unfold tableBloom
  rw [foldl_add_bits_length, init_nondegenerate _ _ (tableM_pos entries) (by norm_num)]
  simp

/-- Reloading a saved well-formed filter restores it exactly. -/
theorem bloomLoad_bloomSave (bf : BloomFilter) (hm0 : 0 < bf.m_bits)
    (hm : bf.m_bits < 2 ^ 32) (hk0 : 0 < bf.k_hashes) (hkk : bf.k_hashes < 2 ^ 32)
    (hlen : bf.bits.length = (bf.m_bits + 7) / 8) :
    bloomLoad (bloomSave bf) = some bf := by
  have hblen : bf.bits.length < 2 ^ 32 := by omega
  have hmod : bf.bits.length % 2 ^ 32 = bf.bits.length := Nat.mod_eq_of_lt hblen
  unfold bloomSave
  rw [hmod, List.take_length]
  unfold bloomLoad
  have hlen16 : (le32 0xB100B100 ++ le32 bf.m_bits ++ le32 bf.k_hashes ++
      le32 bf.bits.length ++ bf.bits).length = 16 + bf.bits.length := by
    simp [le32]
    omega
  rw [if_neg (by omega)]
  simp only [List.append_assoc]
  have t4 : ((le32 0xB100B100 ++ (le32 bf.m_bits ++ (le32 bf.k_hashes ++
      (le32 bf.bits.length ++ bf.bits)))).take 4) = le32 0xB100B100 :=
    List.take_left' (le32_length _)
  have d4 : ((le32 0xB100B100 ++ (le32 bf.m_bits ++ (le32 bf.k_hashes ++
      (le32 bf.bits.length ++ bf.bits)))).drop 4) =
      le32 bf.m_bits ++ (le32 bf.k_hashes ++ (le32 bf.bits.length ++ bf.bits)) :=
    List.drop_left' (le32_length _)
  have d8 : ((le32 0xB100B100 ++ (le32 bf.m_bits ++ (le32 bf.k_hashes ++
      (le32 bf.bits.length ++ bf.bits)))).drop 8) =
      le32 bf.k_hashes ++ (le32 bf.bits.length ++ bf.bits) := by
    rw [show (8 : Nat) = 4 + 4 from rfl, ← List.drop_drop, d4,
      List.drop_left' (le32_length _)]
  have d12 : ((le32 0xB100B100 ++ (le32 bf.m_bits ++ (le32 bf.k_hashes ++
      (le32 bf.bits.length ++ bf.bits)))).drop 12) =
      le32 bf.bits.length ++ bf.bits := by
    rw [show (12 : Nat) = 8 + 4 from rfl, ← List.drop_drop, d8,
      List.drop_left' (le32_length _)]
  have d16 : ((le32 0xB100B100 ++ (le32 bf.m_bits ++ (le32 bf.k_hashes ++
      (le32 bf.bits.length ++ bf.bits)))).drop 16) = bf.bits := by
    rw [show (16 : Nat) = 12 + 4 from rfl, ← List.drop_drop, d12,
      List.drop_left' (le32_length _)]
  rw [t4, leVal_le32 _ (by norm_num)]
  rw [if_neg (by norm_num)]
  have e4 : ((le32 0xB100B100 ++ (le32 bf.m_bits ++ (le32 bf.k_hashes ++
      (le32 bf.bits.length ++ bf.bits)))).drop 4).take 4 = le32 bf.m_bits := by
    rw [d4]
    exact List.take_left' (le32_length _)
  have e8 : ((le32 0xB100B100 ++ (le32 bf.m_bits ++ (le32 bf.k_hashes ++
      (le32 bf.bits.length ++ bf.bits)))).drop 8).take 4 = le32 bf.k_hashes := by
    rw [d8]
    exact List.take_left' (le32_length _)
  have e12 : ((le32 0xB100B100 ++ (le32 bf.m_bits ++ (le32 bf.k_hashes ++
      (le32 bf.bits.length ++ bf.bits)))).drop 12).take 4 = le32 bf.bits.length := by
    rw [d12]
    exact List.take_left' (le32_length _)
  rw [e4, e8, e12, leVal_le32 _ hm, leVal_le32 _ hkk, leVal_le32 _ hblen]
  have hinit : BloomFilter.init bf.m_bits bf.k_hashes =
      ⟨bf.m_bits, bf.k_hashes, List.replicate ((bf.m_bits + 7) / 8) 0⟩ := by
    unfold BloomFilter.init
    rw [if_neg (by omega)]
  rw [hinit]
  simp only
  rw [if_neg (by simp [hlen])]
  rw [if_neg (by simp [hlen]; omega)]
  have hread : readBytes (le32 0xB100B100 ++ (le32 bf.m_bits ++ (le32 bf.k_hashes ++
      (le32 bf.bits.length ++ bf.bits)))) 16 bf.bits.length = some bf.bits := by
    exact @readBytes_of_drop (le32 0xB100B100 ++ (le32 bf.m_bits ++
      (le32 bf.k_hashes ++ (le32 bf.bits.length ++ bf.bits)))) 16 bf.bits []
      (by simp [le32]) (by rw [d16, List.append_nil])
  rw [hread]

theorem encodeSSTable_length (entries : List Entry) :
    (encodeSSTable entries).length = (encodeRegion entries).length + 12 := by
  unfold encodeSSTable
  simp [le64, le32]

/-- Every file `write_atomic` produces passes `is_valid`. -/
theorem is_valid_encodeSSTable (entries : List Entry) :
    is_valid (encodeSSTable entries) = true := by
  have hlen := encodeSSTable_length entries
  unfold is_valid
  rw [if_neg (by omega)]
  unfold encodeSSTable at hlen ⊢
  simp only [List.append_assoc] at hlen ⊢
  set R := encodeRegion entries with hR
  set C := fnv1a32 R with hC
  have hsub12 : (R ++ (le64 FOOTER_MAGIC ++ le32 C)).length - 12 = R.length := by
    simp [le64, le32]
  have hsub4 : (R ++ (le64 FOOTER_MAGIC ++ le32 C)).length - 4 = R.length + 8 := by
    simp [le64, le32]
  have hd12 : (R ++ (le64 FOOTER_MAGIC ++ le32 C)).drop
      ((R ++ (le64 FOOTER_MAGIC ++ le32 C)).length - 12) =
      le64 FOOTER_MAGIC ++ le32 C := by
    rw [hsub12]
    exact List.drop_left _ _
  have hmagic : leVal (((R ++ (le64 FOOTER_MAGIC ++ le32 C)).drop
      ((R ++ (le64 FOOTER_MAGIC ++ le32 C)).length - 12)).take 8) = FOOTER_MAGIC := by
    rw [hd12, List.take_left' (le64_length _), leVal_le64]
    unfold FOOTER_MAGIC
    norm_num
  rw [if_neg (by rw [hmagic]; exact fun hne => hne rfl)]
  have hd4 : (R ++ (le64 FOOTER_MAGIC ++ le32 C)).drop
      ((R ++ (le64 FOOTER_MAGIC ++ le32 C)).length - 4) = le32 C := by
    rw [hsub4, ← List.drop_drop, List.drop_left, List.drop_left' (le64_length _)]
  have htk : (R ++ (le64 FOOTER_MAGIC ++ le32 C)).take
      ((R ++ (le64 FOOTER_MAGIC ++ le32 C)).length - 12) = R := by
    rw [hsub12]
    exact List.take_left _ _
  rw [hd4, htk, List.take_of_length_le (by rw [le32_length]), leVal_le32 _ (fnv1a32_lt _)]
  simp

/-- Opening what `write_atomic` wrote yields a valid table with the specified
sparse index and the saved bloom filter. -/
theorem openSST_encoded (entries : List Entry) (hwf : ∀ e ∈ entries, entryWF e) :
    openSST (encodeSSTable entries) (bloomSave (tableBloom entries)) =
      ⟨true, encodeSSTable entries, (encodeRegion entries).length,
        indexSpec entries 0 0, tableBloom entries, true⟩ := by
  have hbl : bloomLoad (bloomSave (tableBloom entries)) = some (tableBloom entries) :=
    bloomLoad_bloomSave _ (by rw [tableBloom_m_bits]; exact tableM_pos entries)
      (by rw [tableBloom_m_bits]; exact tableM_lt entries)
      (by rw [tableBloom_k_hashes]; norm_num)
      (by rw [tableBloom_k_hashes]; norm_num)
      (by rw [tableBloom_bits_length, tableBloom_m_bits])
  have hend : (encodeSSTable entries).length - 12 = (encodeRegion entries).length := by
    rw [encodeSSTable_length]
    omega
  have hbuild : buildIndexLoop (encodeSSTable entries) (encodeRegion entries).length 0 0 =
      indexSpec entries 0 0 := by
    refine buildIndexLoop_encoded entries (encodeSSTable entries)
      (le64 FOOTER_MAGIC ++ le32 (fnv1a32 (encodeRegion entries))) _ 0 0 hwf ?_ ?_ ?_
    · rw [encodeSSTable_length]
    · simp [le64, le32]
    · rw [List.drop_zero]
      unfold encodeSSTable encodeRegion
      simp [List.append_assoc]
  unfold openSST
  rw [if_neg (by rw [is_valid_encodeSSTable]; simp)]
  simp only [hbl, hend, hbuild]

/-- Decomposition behind a sparse-index element: it names a real entry, at the
byte offset of that entry's record, with all earlier keys strictly below it. -/
theorem index_elt_split (entries : List Entry)
    (hwf : ∀ e ∈ entries, entryWF e)
    (hs : entries.Pairwise (fun a b => strLt a.1 b.1 = true))
    (x : Str × Nat) (hxmem : x ∈ indexSpec entries 0 0) :
    ∃ pre v suf, entries = pre ++ (x.1, v) :: suf ∧
      x.2 = ((pre.map encodeRecord).flatten).length ∧
      (∀ a ∈ pre, strLt a.1 x.1 = true) ∧
      ((x.1, v) :: suf).Pairwise (fun a b => strLt a.1 b.1 = true) := by
  have hmem2 : x ∈ entriesWithOff entries 0 := (indexSpec_sublist entries 0 0).mem hxmem
  obtain ⟨pre, v, suf, hsplit, hoff⟩ :=
    entriesWithOff_mem_split entries 0 x.1 x.2 (by simpa using hmem2)
  have hwfpre : ∀ e ∈ pre, entryWF e := by
    intro a ha
    exact hwf a (by rw [hsplit]; exact List.mem_append_left _ ha)
  refine ⟨pre, v, suf, hsplit, ?_, ?_, ?_⟩
  · rw [hoff, regionLen_eq pre hwfpre]
    omega
  · intro a ha
    rw [hsplit] at hs
    have := (List.pairwise_append.mp hs).2.2 a ha (x.1, v) (by simp)
    simpa using this
  · rw [hsplit] at hs
    exact (List.pairwise_append.mp hs).2.1

theorem encodeSSTable_drop0 (entries : List Entry) :
    (encodeSSTable entries).drop 0 = (entries.map encodeRecord).flatten ++
      (le64 FOOTER_MAGIC ++ le32 (fnv1a32 (encodeRegion entries))) := by
  rw [List.drop_zero]
  unfold encodeSSTable encodeRegion
  simp [List.append_assoc]

theorem footer_length (entries : List Entry) :
    (le64 FOOTER_MAGIC ++ le32 (fnv1a32 (encodeRegion entries))).length = 12 := by
  simp [le64, le32]

/-- The scan start produced by the sparse index for probe `key`, when the
`upper_bound` lands past the front: the offset of an entry whose key is `≤ key`
with every earlier entry's key strictly below it. -/
theorem startOffset_split (entries : List Entry)
    (hwf : ∀ e ∈ entries, entryWF e)
    (hs : entries.Pairwise (fun a b => strLt a.1 b.1 = true))
    (key : Str)
    (hub : upperBoundPos (indexSpec entries 0 0) key ≠ 0) :
    ∃ pre v suf s,
      entries = pre ++ (s, v) :: suf ∧
      startOffset (indexSpec entries 0 0) key = ((pre.map encodeRecord).flatten).length ∧
      strLt key s = false ∧
      (∀ a ∈ pre, strLt a.1 s = true) ∧
      ((s, v) :: suf).Pairwise (fun a b => strLt a.1 b.1 = true) := by
  classical
  set idx := indexSpec entries 0 0 with hidxd
  set p : Str × Nat → Bool := fun en => !(strLt key en.1) with hp
  have hubdef : upperBoundPos idx key = (idx.takeWhile p).length := rfl
  set tw := idx.takeWhile p with htw
  have htwpos : 0 < tw.length := by
    rw [hubdef] at hub
    omega
  have hgetD : idx.getD (tw.length - 1) ([], 0) = tw.getD (tw.length - 1) ([], 0) := by
    conv_lhs => rw [← List.takeWhile_append_dropWhile p idx]
    rw [← htw]
    exact List.getD_append _ _ _ _ (by omega)
  set x := tw.getD (tw.length - 1) ([], 0) with hxd
  have hxmem_tw : x ∈ tw := by
    rw [hxd, List.getD_eq_getElem _ _ (by simpa using Nat.sub_lt htwpos one_pos)]
    exact List.getElem_mem _
  have hpx : p x = true := List.mem_takeWhile_imp (htw ▸ hxmem_tw)
  have hkx : strLt key x.1 = false := by
    rw [hp] at hpx
    simpa using hpx
  have hxmem_idx : x ∈ idx := (List.takeWhile_prefix p).sublist.mem (htw ▸ hxmem_tw)
  obtain ⟨pre, v, suf, hsplit, hxoff, hprelt, hsufsorted⟩ :=
    index_elt_split entries hwf hs x (hidxd ▸ hxmem_idx)
  refine ⟨pre, v, suf, x.1, hsplit, ?_, hkx, hprelt, hsufsorted⟩
  rw [startOffset, if_neg hub, hubdef, hgetD]
  exact hxoff

/-- The written file, reopened, returns every written entry's value. -/
theorem get_encoded_found (entries : List Entry)
    (hwf : ∀ e ∈ entries, entryWF e)
    (hs : entries.Pairwise (fun a b => strLt a.1 b.1 = true))
    (e : Entry) (hmem : e ∈ entries) :
    (openSST (encodeSSTable entries) (bloomSave (tableBloom entries))).get e.1 =
      some e.2 := by
  rw [openSST_encoded entries hwf]
  have hendlen : (encodeRegion entries).length + 12 = (encodeSSTable entries).length := by
    rw [encodeSSTable_length]
  have hcont : (tableBloom entries).possibly_contains e.1 = true := by
    unfold tableBloom
    refine BloomFilter.possibly_contains_foldl_add _ _ _ ?_ ?_
    · rw [init_nondegenerate _ _ (tableM_pos _) (by norm_num)]
      simp
    · exact List.mem_map_of_mem Prod.fst hmem
  have hne : entries ≠ [] := by
    rintro rfl
    cases hmem
  have hidxne : indexSpec entries 0 0 ≠ [] := by
    rcases entries with _ | ⟨e0, rest⟩
    · cases hne rfl
    · simp [indexSpec, kIndexStride]
  unfold SST.get
  simp only [hcont, Bool.not_true, Bool.and_false, Bool.or_false, Bool.not_false]
  rw [if_neg (by simp [List.isEmpty_iff, hidxne]), if_neg (by simp)]
  by_cases hub : upperBoundPos (indexSpec entries 0 0) e.1 = 0
  · rw [startOffset, if_pos hub]
    have hhead : ((indexSpec entries 0 0).headD ([], 0)).2 = 0 := by
      rcases entries with _ | ⟨e0, rest⟩
      · cases hne rfl
      · simp [indexSpec, kIndexStride]
    rw [hhead]
    rw [sstScan_encoded entries (encodeSSTable entries)
      (le64 FOOTER_MAGIC ++ le32 (fnv1a32 (encodeRegion entries))) _ 0 e.1 hwf hendlen
      (footer_length entries) (encodeSSTable_drop0 entries)]
    exact lookupScan_found entries e.1 e.2 hs hmem
  · obtain ⟨pre, v, suf, sKey, hsplit, hstart, hkx, hprelt, hsufsorted⟩ :=
      startOffset_split entries hwf hs e.1 hub
    have hwfsuf : ∀ y ∈ (sKey, v) :: suf, entryWF y := by
      intro y hy
      exact hwf y (by rw [hsplit]; exact List.mem_append_right _ hy)
    have hfile : encodeSSTable entries = (pre.map encodeRecord).flatten ++
        ((((sKey, v) :: suf).map encodeRecord).flatten ++
          (le64 FOOTER_MAGIC ++ le32 (fnv1a32 (encodeRegion entries)))) := by
      conv_lhs => rw [show encodeSSTable entries = (encodeSSTable entries).drop 0 from
        (List.drop_zero _).symm, encodeSSTable_drop0, hsplit]
      simp [List.append_assoc]
      rw [hsplit]
    have hdropx : (encodeSSTable entries).drop
        (((pre.map encodeRecord).flatten).length) =
        (((sKey, v) :: suf).map encodeRecord).flatten ++
          (le64 FOOTER_MAGIC ++ le32 (fnv1a32 (encodeRegion entries))) := by
      conv_lhs => rw [hfile]
      exact List.drop_left _ _
    rw [hstart]
    rw [sstScan_encoded ((sKey, v) :: suf) (encodeSSTable entries)
      (le64 FOOTER_MAGIC ++ le32 (fnv1a32 (encodeRegion entries))) _ _ e.1 hwfsuf hendlen
      (footer_length entries) hdropx]
    have hmem_suf : (e.1, e.2) ∈ (sKey, v) :: suf := by
      have hsplit2 : e ∈ pre ∨ e ∈ (sKey, v) :: suf := by
        rw [hsplit] at hmem
        exact List.mem_append.mp hmem
      rcases hsplit2 with hpre | hsuf
      · exfalso
        have hlt := hprelt e hpre
        rw [hlt] at hkx
        cases hkx
      · exact hsuf
    exact lookupScan_found _ _ _ hsufsorted hmem_suf

/-- The written file, reopened, answers `NotInTable` for unwritten keys. -/
theorem get_encoded_absent (entries : List Entry)
    (hwf : ∀ e ∈ entries, entryWF e)
    (hs : entries.Pairwise (fun a b => strLt a.1 b.1 = true))
    (hne : entries ≠ []) (key : Str)
    (habs : ∀ e ∈ entries, e.1 ≠ key) :
    (openSST (encodeSSTable entries) (bloomSave (tableBloom entries))).get key = none := by
  rw [openSST_encoded entries hwf]
  have hendlen : (encodeRegion entries).length + 12 = (encodeSSTable entries).length := by
    rw [encodeSSTable_length]
  have hidxne : indexSpec entries 0 0 ≠ [] := by
    rcases entries with _ | ⟨e0, rest⟩
    · cases hne rfl
    · simp [indexSpec, kIndexStride]
  unfold SST.get
  rw [if_neg (by simp [List.isEmpty_iff, hidxne])]
  by_cases hbok : (tableBloom entries).possibly_contains key = true
  · rw [if_neg (by simp [hbok])]
    by_cases hub : upperBoundPos (indexSpec entries 0 0) key = 0
    · rw [startOffset, if_pos hub]
      have hhead : ((indexSpec entries 0 0).headD ([], 0)).2 = 0 := by
        rcases entries with _ | ⟨e0, rest⟩
        · cases hne rfl
        · simp [indexSpec, kIndexStride]
      rw [hhead]
      rw [sstScan_encoded entries (encodeSSTable entries)
        (le64 FOOTER_MAGIC ++ le32 (fnv1a32 (encodeRegion entries))) _ 0 key hwf hendlen
        (footer_length entries) (encodeSSTable_drop0 entries)]
      exact lookupScan_not_mem entries key habs
    · obtain ⟨pre, v, suf, sKey, hsplit, hstart, hkx, hprelt, hsufsorted⟩ :=
        startOffset_split entries hwf hs key hub
      have hwfsuf : ∀ y ∈ (sKey, v) :: suf, entryWF y := by
        intro y hy
        exact hwf y (by rw [hsplit]; exact List.mem_append_right _ hy)
      have hfile : encodeSSTable entries = (pre.map encodeRecord).flatten ++
          ((((sKey, v) :: suf).map encodeRecord).flatten ++
            (le64 FOOTER_MAGIC ++ le32 (fnv1a32 (encodeRegion entries)))) := by
        conv_lhs => rw [show encodeSSTable entries = (encodeSSTable entries).drop 0 from
          (List.drop_zero _).symm, encodeSSTable_drop0, hsplit]
        simp [List.append_assoc]
        rw [hsplit]
      have hdropx : (encodeSSTable entries).drop
          (((pre.map encodeRecord).flatten).length) =
          (((sKey, v) :: suf).map encodeRecord).flatten ++
            (le64 FOOTER_MAGIC ++ le32 (fnv1a32 (encodeRegion entries))) := by
        conv_lhs => rw [hfile]
        exact List.drop_left _ _
      rw [hstart]
      rw [sstScan_encoded ((sKey, v) :: suf) (encodeSSTable entries)
        (le64 FOOTER_MAGIC ++ le32 (fnv1a32 (encodeRegion entries))) _ _ key hwfsuf hendlen
        (footer_length entries) hdropx]
      refine lookupScan_not_mem _ key ?_
      intro y hy
      exact habs y (by rw [hsplit]; exact List.mem_append_right _ hy)
  · rw [if_pos (by simp [Bool.not_eq_true] at hbok; simp [hbok])]

/-! ## `std::map` model and the compaction merge (`HeliosDB::compact_once_`) -/

/-- `std::map::operator[]=`: ordered insert-or-assign keyed by `strLt`. -/
def mapInsert (m : List Entry) (k : Str) (v : Option Str) : List Entry :=
  match m with
  | [] => [(k, v)]
  | (k', v') :: rest =>
    if strLt k k' then (k, v) :: (k', v') :: rest
    else if strLt k' k then (k', v') :: mapInsert rest k v
    else (k, v) :: rest

/-- `std::map::find`: `some` of the mapped value when the key is present. -/
def mapLookup (m : List Entry) (k : Str) : Option (Option Str) :=
  match m with
  | [] => none
  | (k', v') :: rest => if k' = k then some v' else mapLookup rest k

theorem mapLookup_mapInsert (m : List Entry) (k : Str) (v : Option Str) (q : Str) :
    mapLookup (mapInsert m k v) q = if k = q then some v else mapLookup m q := by
  induction m with
  | nil => rfl
  | cons e rest ih =>
    rcases e with ⟨k', v'⟩
    rw [mapInsert]
    by_cases h1 : strLt k k' = true
    · rw [if_pos h1]
      rw [show mapLookup ((k, v) :: (k', v') :: rest) q =
        if k = q then some v else mapLookup ((k', v') :: rest) q from rfl]
    · rw [if_neg h1]
      by_cases h2 : strLt k' k = true
      · rw [if_pos h2]
        rw [show mapLookup ((k', v') :: mapInsert rest k v) q =
          if k' = q then some v' else mapLookup (mapInsert rest k v) q from rfl]
        rw [ih]
        rw [show mapLookup ((k', v') :: rest) q =
          if k' = q then some v' else mapLookup rest q from rfl]
        by_cases hk' : k' = q
        · have hne : ¬ (k = q) := by
            intro hkq
            rw [← hkq] at hk'
            subst hk'
            rw [strLt_irrefl] at h2
            cases h2
          rw [if_pos hk', if_neg hne, if_pos hk']
        · rw [if_neg hk', if_neg hk']
      · have hf1 : strLt k k' = false := by
          cases hh : strLt k k'
          · rfl
          · exact absurd hh h1
        have hf2 : strLt k' k = false := by
          cases hh : strLt k' k
          · rfl
          · exact absurd hh h2
        have hkk : k = k' := strLt_total hf1 hf2
        subst hkk
        rw [if_neg h2]
        rw [show mapLookup ((k, v) :: rest) q =
          if k = q then some v else mapLookup rest q from rfl]
        rw [show mapLookup ((k, v') :: rest) q =
          if k = q then some v' else mapLookup rest q from rfl]
        by_cases hq : k = q
        · rw [if_pos hq, if_pos hq]
        · rw [if_neg hq, if_neg hq, if_neg hq]

/-- The record-decoding loop of `compact_once_` over one `.dat` file: insert
every decoded record into the merged map, later records overwriting earlier
ones; stop at region end or on any truncated read. -/
def compactScanLoop (file : List Nat) (endPos off : Nat) (acc : List Entry) : List Entry :=
  if h : off < endPos then
    match readBytes file off 4, readBytes file (off + 4) 4 with
    | some kb, some vb =>
      let ksize := leVal kb
      let vsize := leVal vb
      if hk : off + 8 + ksize > endPos then acc
      else
        match readBytes file (off + 8) ksize with
        | some key =>
          if vsize = TOMBSTONE_VSIZE then
            compactScanLoop file endPos (off + 8 + ksize) (mapInsert acc key none)
          else
            if hv : off + 8 + ksize + vsize > endPos then acc
            else
              match readBytes file (off + 8 + ksize) vsize with
              | some val =>
                compactScanLoop file endPos (off + 8 + ksize + vsize)
                  (mapInsert acc key (some val))
              | none => acc
        | none => acc
    | _, _ => acc
  else acc
termination_by endPos - off
decreasing_by
  · omega
  · omega

/-- The merge pass of `compact_once_`: scan the selected files oldest→newest,
skipping invalid ones, into one ordered map. -/
def merge_files_scan (files : List (List Nat)) : List Entry :=
  files.foldl
    (fun acc f => if is_valid f then compactScanLoop f (f.length - 12) 0 acc else acc) []

/-- The compaction scan of a well-formed encoded table folds its entries into
the accumulator in order. -/
theorem compactScanLoop_encoded (suffix : List Entry) (file tail : List Nat)
    (endPos off : Nat) (acc : List Entry)
    (hwf : ∀ e ∈ suffix, entryWF e)
    (hend : endPos + 12 = file.length)
    (htail : tail.length = 12)
    (hdrop : file.drop off = (suffix.map encodeRecord).flatten ++ tail) :
    compactScanLoop file endPos off acc =
      suffix.foldl (fun a e => mapInsert a e.1 e.2) acc := by
  induction suffix generalizing off acc with
  | nil =>
    have hlen := congrArg List.length hdrop
    simp [htail] at hlen
    rw [compactScanLoop]
    rw [dif_neg (by omega)]
    rfl
  | cons e rest ih =>
    have hwfe : entryWF e := hwf e (by simp)
    have hlen := congrArg List.length hdrop
    simp [htail, encodeRecord_length e hwfe] at hlen
    simp only [List.map_cons, List.flatten_cons, List.append_assoc] at hdrop
    have hoff : off ≤ file.length := by omega
    have hsz8 : 8 ≤ recSize e := by
      rcases e with ⟨k, _ | v⟩
      · exact Nat.le_add_right 8 _
      · show 8 ≤ 8 + k.length + v.length
        omega
    have hfit : off + recSize e ≤ endPos := by omega
    have hrest : file.drop (off + recSize e) =
        (rest.map encodeRecord).flatten ++ tail := by
      rw [← List.drop_drop, hdrop, List.drop_left' (encodeRecord_length e hwfe)]
    rcases e with ⟨k, v⟩
    have hk : k.length < 2 ^ 32 := by
      rcases v with _ | v
      · exact hwfe
      · exact hwfe.1
    rw [compactScanLoop]
    rw [dif_pos (by omega)]
    rcases v with _ | v
    · have hrs : recSize (k, (none : Option Str)) = 8 + k.length := rfl
      rw [encodeRecord_tomb k hk] at hdrop
      simp only [List.append_assoc] at hdrop
      have r1 : readBytes file off 4 = some (le32 k.length) := by
        have := readBytes_of_drop hoff hdrop
        rwa [le32_length] at this
      have hd4 : file.drop (off + 4) = le32 TOMBSTONE_VSIZE ++
          (k ++ ((rest.map encodeRecord).flatten ++ tail)) := by
        rw [← List.drop_drop, hdrop, List.drop_left' (le32_length _)]
      have r2 : readBytes file (off + 4) 4 = some (le32 TOMBSTONE_VSIZE) := by
        have := readBytes_of_drop (by omega) hd4
        rwa [le32_length] at this
      have hd8 : file.drop (off + 8) = k ++ ((rest.map encodeRecord).flatten ++ tail) := by
        have h8 : off + 8 = (off + 4) + 4 := by omega
        rw [h8, ← List.drop_drop, hd4, List.drop_left' (le32_length _)]
      have r3 : readBytes file (off + 8) k.length = some k := by
        exact readBytes_of_drop (by omega) hd8
      have hihs : compactScanLoop file endPos (off + 8 + k.length) (mapInsert acc k none) =
          rest.foldl (fun a e => mapInsert a e.1 e.2) (mapInsert acc k none) := by
        rw [show off + 8 + k.length = off + recSize (k, (none : Option Str)) from by
          rw [hrs]; omega]
        exact ih _ _ (fun x hx => hwf x (by simp [hx])) hrest
      have hihs2 : compactScanLoop file endPos (off + (8 + k.length)) (mapInsert acc k none) =
          rest.foldl (fun a e => mapInsert a e.1 e.2) (mapInsert acc k none) := by
        rw [show off + (8 + k.length) = off + 8 + k.length from by omega]
        exact hihs
      rw [r1, r2]
      simp only [leVal_le32 _ hk, leVal_le32 _ tombstone_lt]
      rw [dif_neg (by omega)]
      simp [r3, hihs, hihs2]
    · have hv : v.length < 2 ^ 32 - 1 := hwfe.2
      have hrs : recSize (k, some v) = 8 + k.length + v.length := rfl
      have ht2 : TOMBSTONE_VSIZE = 2 ^ 32 - 1 := rfl
      rw [encodeRecord_put k v hk hv] at hdrop
      simp only [List.append_assoc] at hdrop
      have r1 : readBytes file off 4 = some (le32 k.length) := by
        have := readBytes_of_drop hoff hdrop
        rwa [le32_length] at this
      have hd4 : file.drop (off + 4) = le32 v.length ++
          (k ++ (v ++ ((rest.map encodeRecord).flatten ++ tail))) := by
        rw [← List.drop_drop, hdrop, List.drop_left' (le32_length _)]
      have r2 : readBytes file (off + 4) 4 = some (le32 v.length) := by
        have := readBytes_of_drop (by omega) hd4
        rwa [le32_length] at this
      have hd8 : file.drop (off + 8) = k ++ (v ++ ((rest.map encodeRecord).flatten ++ tail)) := by
        have h8 : off + 8 = (off + 4) + 4 := by omega
        rw [h8, ← List.drop_drop, hd4, List.drop_left' (le32_length _)]
      have r3 : readBytes file (off + 8) k.length = some k := by
        exact readBytes_of_drop (by omega) hd8
      have hd8k : file.drop (off + 8 + k.length) =
          v ++ ((rest.map encodeRecord).flatten ++ tail) := by
        rw [← List.drop_drop, hd8, List.drop_left]
      have r4 : readBytes file (off + 8 + k.length) v.length = some v := by
        exact readBytes_of_drop (by omega) hd8k
      have r4' : readBytes file (off + (8 + k.length)) v.length = some v := by
        rw [show off + (8 + k.length) = off + 8 + k.length from by omega]
        exact r4
      have hihs : compactScanLoop file endPos (off + 8 + k.length + v.length)
          (mapInsert acc k (some v)) =
          rest.foldl (fun a e => mapInsert a e.1 e.2) (mapInsert acc k (some v)) := by
        rw [show off + 8 + k.length + v.length = off + recSize (k, some v) from by
          rw [hrs]; omega]
        exact ih _ _ (fun x hx => hwf x (by simp [hx])) hrest
      have hihs2 : compactScanLoop file endPos (off + (8 + (k.length + v.length)))
          (mapInsert acc k (some v)) =
          rest.foldl (fun a e => mapInsert a e.1 e.2) (mapInsert acc k (some v)) := by
        rw [show off + (8 + (k.length + v.length)) = off + 8 + k.length + v.length from by
          omega]
        exact hihs
      have htomb : ¬ (v.length = TOMBSTONE_VSIZE) := by omega
      have hbound : ¬ (off + 8 + k.length + v.length > endPos) := by omega
      rw [r1, r2]
      simp only [leVal_le32 _ hk, leVal_le32 _ (show v.length < 2 ^ 32 by omega)]
      rw [dif_neg (by omega)]
      simp [r3, r4, r4', htomb, hbound, hihs, hihs2]
      all_goals omega

/-- The value the decode loop leaves for key `k` after one table: the last
record with that key wins within the table. -/
def assocFind : List Entry → Str → Option (Option Str)
  | [], _ => none
  | e :: rest, k =>
    match assocFind rest k with
    | some v => some v
    | none => if e.1 = k then some e.2 else none

/-- The value left for `k` after merging a list of tables oldest→newest: the
latest table containing `k` wins. -/
def lastWrite : List (List Entry) → Str → Option (Option Str)
  | [], _ => none
  | es :: rest, k =>
    match lastWrite rest k with
    | some v => some v
    | none => assocFind es k

theorem mapLookup_foldl_insert (es : List Entry) (acc : List Entry) (k : Str) :
    mapLookup (es.foldl (fun a e => mapInsert a e.1 e.2) acc) k =
      (assocFind es k).or (mapLookup acc k) := by
  induction es generalizing acc with
  | nil => rfl
  | cons e rest ih =>
    simp only [List.foldl_cons]
    rw [ih, assocFind, mapLookup_mapInsert]
    rcases hrest : assocFind rest k with _ | v
    · simp only [hrest, Option.none_or]
      by_cases hq : e.1 = k
      · rw [if_pos hq, if_pos hq]
        rfl
      · rw [if_neg hq, if_neg hq]
        rfl
    · simp [hrest]

theorem lastWrite_or (tables : List (List Entry)) (acc : List Entry) (k : Str) :
    mapLookup (tables.foldl
      (fun a es => es.foldl (fun a2 e => mapInsert a2 e.1 e.2) a) acc) k =
      (lastWrite tables k).or (mapLookup acc k) := by
  induction tables generalizing acc with
  | nil => rfl
  | cons es rest ih =>
    simp only [List.foldl_cons]
    rw [ih, lastWrite]
    rcases hrest : lastWrite rest k with _ | v
    · simp only
      rw [mapLookup_foldl_insert]
      rcases assocFind es k <;> rfl
    · rfl

/-- The merge over encoded well-formed tables computes `lastWrite`. -/
theorem merge_files_scan_encoded (tables : List (List Entry))
    (hwf : ∀ es ∈ tables, ∀ e ∈ es, entryWF e) (k : Str) :
    mapLookup (merge_files_scan (tables.map encodeSSTable)) k = lastWrite tables k := by
  have hfold : ∀ (ts : List (List Entry)) (acc : List Entry),
      (∀ es ∈ ts, ∀ e ∈ es, entryWF e) →
      (ts.map encodeSSTable).foldl
        (fun a f => if is_valid f then compactScanLoop f (f.length - 12) 0 a else a) acc =
      ts.foldl (fun a es => es.foldl (fun a2 e => mapInsert a2 e.1 e.2) a) acc := by
    intro ts
    induction ts with
    | nil =>
      intro acc _
      rfl
    | cons es rest ih =>
      intro acc hwf2
      simp only [List.map_cons, List.foldl_cons]
      rw [if_pos (is_valid_encodeSSTable es)]
      rw [show (encodeSSTable es).length - 12 = (encodeRegion es).length from by
        rw [encodeSSTable_length]; omega]
      rw [compactScanLoop_encoded es (encodeSSTable es)
        (le64 FOOTER_MAGIC ++ le32 (fnv1a32 (encodeRegion es))) _ 0 acc
        (hwf2 es (by simp)) (by rw [encodeSSTable_length]) (footer_length es)
        (encodeSSTable_drop0 es)]
      exact ih _ (fun x hx => hwf2 x (by simp [hx]))
  rw [show merge_files_scan (tables.map encodeSSTable) =
    (tables.map encodeSSTable).foldl
      (fun a f => if is_valid f then compactScanLoop f (f.length - 12) 0 a else a) []
    from rfl]
  rw [hfold tables [] hwf, lastWrite_or]
  rcases lastWrite tables k with _ | v <;> rfl

theorem assocFind_none_of_absent (es : List Entry) (k : Str)
    (h : ∀ e ∈ es, e.1 ≠ k) : assocFind es k = none := by
  induction es with
  | nil => rfl
  | cons e rest ih =>
    rw [assocFind, ih (fun x hx => h x (by simp [hx]))]
    simp [h e (by simp)]

theorem assocFind_of_mem_sorted (es : List Entry) (k : Str) (v : Option Str)
    (hs : es.Pairwise (fun a b => strLt a.1 b.1 = true)) (hmem : (k, v) ∈ es) :
    assocFind es k = some v := by
  induction es with
  | nil => cases hmem
  | cons e rest ih =>
    rw [assocFind]
    rcases List.mem_cons.mp hmem with he | hr
    · cases he
      have habs : ∀ x ∈ rest, x.1 ≠ k := by
        intro x hx hxk
        have := (List.pairwise_cons.mp hs).1 x hx
        rw [hxk] at this
        rw [strLt_irrefl] at this
        cases this
      rw [assocFind_none_of_absent rest k habs]
      simp
    · rw [ih (List.pairwise_cons.mp hs).2 hr]

theorem lastWrite_append_some (front rest : List (List Entry)) (k : Str) (v : Option Str)
    (h : lastWrite rest k = some v) : lastWrite (front ++ rest) k = some v := by
  induction front with
  | nil => exact h
  | cons t ft ih =>
    rw [List.cons_append, lastWrite, ih]

theorem lastWrite_none_of_absent (ts : List (List Entry)) (k : Str)
    (h : ∀ es ∈ ts, ∀ e ∈ es, e.1 ≠ k) : lastWrite ts k = none := by
  induction ts with
  | nil => rfl
  | cons es rest ih =>
    rw [lastWrite, ih (fun x hx => h x (by simp [hx]))]
    simp [assocFind_none_of_absent es k (h es (by simp))]

theorem mapLookup_some_mem (m : List Entry) (k : Str) (v : Option Str)
    (h : mapLookup m k = some v) : (k, v) ∈ m := by
  induction m with
  | nil => cases h
  | cons e rest ih =>
    rcases e with ⟨k', v'⟩
    rw [mapLookup] at h
    by_cases hq : k' = k
    · rw [if_pos hq] at h
      injection h with h
      subst hq
      subst h
      simp
    · rw [if_neg hq] at h
      simp [ih h]

/-- Core of claim C4: the value the merge keeps for a key is the one in the
latest selected table holding that key. -/
theorem merge_lookup_latest (tables : List (List Entry))
    (hwf : ∀ es ∈ tables, ∀ e ∈ es, entryWF e)
    (hsorted : ∀ es ∈ tables, es.Pairwise (fun a b => strLt a.1 b.1 = true))
    (k : Str) (v : Option Str) (j : Nat) (hj : j < tables.length)
    (hmem : (k, v) ∈ tables[j])
    (hafter : ∀ l, ∀ hl : l < tables.length, j < l → ∀ e ∈ tables[l], e.1 ≠ k) :
    mapLookup (merge_files_scan (tables.map encodeSSTable)) k = some v := by
  rw [merge_files_scan_encoded tables hwf k]
  have hdecomp : tables = tables.take j ++ (tables[j] :: tables.drop (j + 1)) := by
    conv_lhs => rw [← List.take_append_drop j tables]
    rw [List.drop_eq_getElem_cons hj]
  have habsent : lastWrite (tables.drop (j + 1)) k = none := by
    refine lastWrite_none_of_absent _ _ ?_
    intro es hes e he
    obtain ⟨i, hi, hie⟩ := List.mem_iff_getElem.mp hes
    have hlen : j + 1 + i < tables.length := by
      have := hi
      simp [List.length_drop] at this
      omega
    have : es = tables[j + 1 + i] := by
      rw [← hie, List.getElem_drop]
    rw [this] at he
    exact hafter (j + 1 + i) hlen (by omega) e he
  have hfind : assocFind tables[j] k = some v :=
    assocFind_of_mem_sorted _ _ _ (hsorted _ (by simp)) hmem
  rw [hdecomp]
  refine lastWrite_append_some _ _ _ _ ?_
  rw [lastWrite, habsent]
  simpa using hfind

/-! ## Single-byte corruption and `is_valid` (C5) -/

/-- Flipping bit `j` of the byte at position `p` (xor with `1 << j`). -/
def flipBit (f : List Nat) (p j : Nat) : List Nat :=
  f.set p (f.getD p 0 ^^^ 2 ^ j)

theorem take_set_of_le (l : List Nat) (i n a : Nat) (h : n ≤ i) :
    (l.set i a).take n = l.take n := by
  apply List.ext_getElem?
  intro k
  rw [List.getElem?_take, List.getElem?_take]
  by_cases hk : k < n
  · rw [if_pos hk, if_pos hk, List.getElem?_set_ne (by omega)]
  · rw [if_neg hk, if_neg hk]

theorem drop_set_of_le (l : List Nat) (i n a : Nat) (h : n ≤ i) :
    (l.set i a).drop n = (l.drop n).set (i - n) a := by
  apply List.ext_getElem?
  intro k
  rw [List.getElem?_drop, List.getElem?_set, List.getElem?_set, List.getElem?_drop,
    List.length_drop]
  by_cases hk : i = n + k
  · rw [if_pos hk, if_pos (show i - n = k by omega)]
    by_cases hl : i < l.length
    · rw [if_pos hl, if_pos (show i - n < l.length - n by omega)]
    · rw [if_neg hl, if_neg (show ¬ (i - n < l.length - n) by omega)]
  · rw [if_neg hk, if_neg (show ¬ (i - n = k) by omega)]

theorem take_set_comm (l : List Nat) (i n a : Nat) (h : i < n) :
    (l.set i a).take n = (l.take n).set i a := by
  induction l generalizing i n with
  | nil => simp
  | cons c cs ih =>
    cases i with
    | zero =>
      cases n with
      | zero => omega
      | succ m => simp
    | succ i' =>
      cases n with
      | zero => omega
      | succ m => simp [ih i' m (by omega)]

theorem getD_drop_add (l : List Nat) (n k : Nat) :
    (l.drop n).getD k 0 = l.getD (n + k) 0 := by
  simp [List.getD_eq_getElem?_getD, List.getElem?_drop]

/-- Odd-multiplier cancellation modulo `2^32`: multiplying by the FNV prime is
injective on `uint32_t` values. -/
theorem mulP_mod_inj (a b : Nat) (ha : a < 2 ^ 32) (hb : b < 2 ^ 32)
    (h : a * 16777619 % 2 ^ 32 = b * 16777619 % 2 ^ 32) : a = b := by
  have hco : Nat.gcd (2 ^ 32) 16777619 = 1 := by norm_num
  have h2 : a % 2 ^ 32 = b % 2 ^ 32 := Nat.ModEq.cancel_right_of_coprime hco h
  rw [Nat.mod_eq_of_lt ha, Nat.mod_eq_of_lt hb] at h2
  exact h2

theorem fnvStep32_inj_byte (h x y : Nat) (hh : h < 2 ^ 32) (hx : x < 2 ^ 32)
    (hy : y < 2 ^ 32) (hne : x ≠ y) : fnvStep32 h x ≠ fnvStep32 h y := by
  intro he
  have hxx : h ^^^ x = h ^^^ y :=
    mulP_mod_inj _ _ (Nat.xor_lt_two_pow hh hx) (Nat.xor_lt_two_pow hh hy) he
  apply hne
  have h2 := congrArg (fun t => h ^^^ t) hxx
  simpa [← Nat.xor_assoc, Nat.xor_self, Nat.zero_xor] using h2

theorem fnvStep32_inj_state (s t b : Nat) (hs : s < 2 ^ 32) (ht : t < 2 ^ 32)
    (hb : b < 2 ^ 32) (hne : s ≠ t) : fnvStep32 s b ≠ fnvStep32 t b := by
  intro he
  have hxx : s ^^^ b = t ^^^ b :=
    mulP_mod_inj _ _ (Nat.xor_lt_two_pow hs hb) (Nat.xor_lt_two_pow ht hb) he
  apply hne
  rw [← Nat.xor_cancel_right b s, hxx, Nat.xor_cancel_right]

/-- Folding FNV-1a-32 over the same byte suffix from two distinct `uint32_t`
states yields distinct results. -/
theorem fnvFold32_ne (S : List Nat) (hS : ∀ c ∈ S, c < 2 ^ 32) :
    ∀ s t : Nat, s < 2 ^ 32 → t < 2 ^ 32 → s ≠ t → fnvFold32 s S ≠ fnvFold32 t S := by
  induction S with
  | nil => intro s t _ _ hne; simpa [fnvFold32] using hne
  | cons c cs ih =>
    intro s t hs ht hne
    have hc : c < 2 ^ 32 := hS c (List.mem_cons_self c cs)
    have hcs : ∀ d ∈ cs, d < 2 ^ 32 := fun d hd => hS d (List.mem_cons_of_mem c hd)
    simpa [fnvFold32] using
      ih hcs (fnvStep32 s c) (fnvStep32 t c) (fnvStep32_lt s c) (fnvStep32_lt t c)
        (fnvStep32_inj_state s t c hs ht hc hne)

/-- Replacing one byte of a buffer by a different byte value changes its
FNV-1a-32 checksum. -/
theorem fnv1a32_set_ne (l : List Nat) (hl : ∀ c ∈ l, c < 2 ^ 32) (p x : Nat)
    (hp : p < l.length) (hx : x < 2 ^ 32) (hne : x ≠ l.getD p 0) :
    fnv1a32 (l.set p x) ≠ fnv1a32 l := by
  have hget : l.getD p 0 = l[p] := List.getD_eq_getElem l 0 hp
  have hd : l.drop p = l[p] :: l.drop (p + 1) := List.drop_eq_getElem_cons hp
  have hdecomp : l = l.take p ++ l[p] :: l.drop (p + 1) := by
    conv_lhs => rw [← List.take_append_drop p l, hd]
  have hset : l.set p x = l.take p ++ x :: l.drop (p + 1) :=
    List.set_eq_take_cons_drop x hp
  have key : ∀ y, fnv1a32 (l.take p ++ y :: l.drop (p + 1)) =
      fnvFold32 (fnvStep32 (fnvFold32 2166136261 (l.take p)) y) (l.drop (p + 1)) := by
    intro y
    simp [fnv1a32, fnvFold32, List.foldl_append]
  rw [hset]
  conv_rhs => rw [hdecomp]
  rw [key, key]
  have hH : fnvFold32 2166136261 (l.take p) < 2 ^ 32 :=
    fnvFold32_lt _ _ (by norm_num)
  refine fnvFold32_ne (l.drop (p + 1))
    (fun d hd2 => hl d (List.mem_of_mem_drop hd2)) _ _
    (fnvStep32_lt _ _) (fnvStep32_lt _ _) ?_
  exact fnvStep32_inj_byte _ x (l[p]) hH hx
    (hl _ (List.getElem_mem hp)) (by rw [← hget]; exact hne)

/-- Replacing one byte of a byte string (all bytes `< 256`) by a different byte
changes its little-endian value. -/
theorem leVal_set_ne (b : List Nat) (hb : ∀ c ∈ b, c < 256) (q x : Nat)
    (hq : q < b.length) (hx : x < 256) (hne : x ≠ b.getD q 0) :
    leVal (b.set q x) ≠ leVal b := by
  induction b generalizing q with
  | nil => simp at hq
  | cons c cs ih =>
    cases q with
    | zero =>
      simp only [List.getD_cons_zero] at hne
      simp only [List.set_cons_zero, leVal]
      intro he
      exact hne (by omega)
    | succ q' =>
      have hcs : ∀ d ∈ cs, d < 256 := fun d hd => hb d (List.mem_cons_of_mem c hd)
      have hrec := ih hcs q' (by simpa using hq) (by simpa using hne)
      simp only [List.set_cons_succ, leVal]
      intro he
      exact hrec (by omega)

/-- Unfolding of the three checks in `SSTable::is_valid`. -/
theorem is_valid_eq_true_iff (f : List Nat) :
    is_valid f = true ↔
      12 ≤ f.length ∧ leVal ((f.drop (f.length - 12)).take 8) = FOOTER_MAGIC ∧
        fnv1a32 (f.take (f.length - 12)) = leVal ((f.drop (f.length - 4)).take 4) := by
  unfold is_valid
  by_cases h1 : f.length < 12
  · simp only [if_pos h1]
    simp
    omega
  · rw [if_neg h1]
    by_cases h2 : leVal ((f.drop (f.length - 12)).take 8) = FOOTER_MAGIC
    · rw [if_neg (not_not_intro h2)]
      simp only [decide_eq_true_eq]
      exact ⟨fun h3 => ⟨by omega, h2, h3⟩, fun h3 => h3.2.2⟩
    · rw [if_pos h2]
      simp only [Bool.false_eq_true, false_iff]
      intro h3
      exact h2 h3.2.1

/-- **C5.** For every file `f` accepted by `is_valid` (bytes `< 256`), flipping
any single bit of any byte outside the 8 footer magic bytes — i.e. a byte of
the checksummed records region, or a byte of the stored checksum — makes
`is_valid` return `false` on the modified file. -/
theorem is_valid_flipBit_false (f : List Nat) (p j : Nat)
    (hbytes : ∀ c ∈ f, c < 256)
    (hvalid : is_valid f = true)
    (hp : p < f.length)
    (hout : p < f.length - 12 ∨ f.length - 4 ≤ p)
    (hj : j < 8) :
    is_valid (flipBit f p j) = false := by
  obtain ⟨hlen, hmagic, hchk⟩ := (is_valid_eq_true_iff f).1 hvalid
  have hfp : f.getD p 0 < 256 := by
    rw [List.getD_eq_getElem f 0 hp]
    exact hbytes _ (List.getElem_mem hp)
  have h2j : 2 ^ j < 256 := by
    calc 2 ^ j ≤ 2 ^ 7 := Nat.pow_le_pow_right (by norm_num) (by omega)
    _ < 256 := by norm_num
  have hxlt : f.getD p 0 ^^^ 2 ^ j < 256 := by
    have := Nat.xor_lt_two_pow (by omega : f.getD p 0 < 2 ^ 8)
      (by omega : 2 ^ j < 2 ^ 8)
    omega
  have hxne : f.getD p 0 ^^^ 2 ^ j ≠ f.getD p 0 := by
    intro he
    have h2 := congrArg (fun t => f.getD p 0 ^^^ t) he.symm
    simp only [← Nat.xor_assoc, Nat.xor_self, Nat.zero_xor] at h2
    have : 0 < 2 ^ j := Nat.pos_pow_of_pos j (by norm_num)
    omega
  have hflen : (flipBit f p j).length = f.length := by
    simp [flipBit]
  rcases hout with hreg | hcs
  · -- flip inside the records region: checksum of the region changes,
    -- stored footer unchanged
    have hdrop12 : (flipBit f p j).drop (f.length - 12) = f.drop (f.length - 12) :=
      List.drop_set_of_lt _ _ hreg
    have hdrop4 : (flipBit f p j).drop (f.length - 4) = f.drop (f.length - 4) :=
      List.drop_set_of_lt _ _ (by omega)
    have htake : (flipBit f p j).take (f.length - 12) =
        (f.take (f.length - 12)).set p (f.getD p 0 ^^^ 2 ^ j) :=
      take_set_comm f p _ _ hreg
    have hple : p < (f.take (f.length - 12)).length := by
      rw [List.length_take]
      omega
    have hfnvne : fnv1a32 ((f.take (f.length - 12)).set p (f.getD p 0 ^^^ 2 ^ j)) ≠
        fnv1a32 (f.take (f.length - 12)) := by
      refine fnv1a32_set_ne _ (fun c hc => ?_) p _ hple (by omega) ?_
      · have := hbytes c (List.mem_of_mem_take hc)
        omega
      · rw [getD_take_of_lt f p _ hreg]
        exact hxne
    unfold is_valid
    rw [hflen, if_neg (by omega), hdrop12, if_neg (not_not_intro hmagic), hdrop4, htake]
    exact decide_eq_false (fun he => hfnvne (he.trans hchk.symm))
  · -- flip inside the stored checksum: region and magic unchanged, the stored
    -- little-endian checksum value changes
    have htake12 : (flipBit f p j).take (f.length - 12) = f.take (f.length - 12) :=
      take_set_of_le f p _ _ (by omega)
    have hdropM : (flipBit f p j).drop (f.length - 12) =
        (f.drop (f.length - 12)).set (p - (f.length - 12)) (f.getD p 0 ^^^ 2 ^ j) :=
      drop_set_of_le f p _ _ (by omega)
    have hmagic8 : ((f.drop (f.length - 12)).set (p - (f.length - 12))
        (f.getD p 0 ^^^ 2 ^ j)).take 8 = (f.drop (f.length - 12)).take 8 :=
      take_set_of_le _ _ _ _ (by omega)
    have hdropC : (flipBit f p j).drop (f.length - 4) =
        (f.drop (f.length - 4)).set (p - (f.length - 4)) (f.getD p 0 ^^^ 2 ^ j) :=
      drop_set_of_le f p _ _ hcs
    have hqlt : p - (f.length - 4) < 4 := by omega
    have htakeC : ((f.drop (f.length - 4)).set (p - (f.length - 4))
        (f.getD p 0 ^^^ 2 ^ j)).take 4 =
        ((f.drop (f.length - 4)).take 4).set (p - (f.length - 4)) (f.getD p 0 ^^^ 2 ^ j) :=
      take_set_comm _ _ _ _ hqlt
    have hcbq : ((f.drop (f.length - 4)).take 4).getD (p - (f.length - 4)) 0 =
        f.getD p 0 := by
      rw [getD_take_of_lt _ _ _ hqlt, getD_drop_add,
        show f.length - 4 + (p - (f.length - 4)) = p by omega]
    have hql : p - (f.length - 4) < ((f.drop (f.length - 4)).take 4).length := by
      rw [List.length_take, List.length_drop]
      omega
    have hlne : leVal (((f.drop (f.length - 4)).take 4).set (p - (f.length - 4))
        (f.getD p 0 ^^^ 2 ^ j)) ≠ leVal ((f.drop (f.length - 4)).take 4) := by
      refine leVal_set_ne _ (fun c hc => hbytes c
        (List.mem_of_mem_drop (List.mem_of_mem_take hc))) _ _ hql hxlt ?_
      rw [hcbq]
      exact hxne
    unfold is_valid
    rw [hflen, if_neg (by omega), hdropM, hmagic8, if_neg (not_not_intro hmagic),
      htake12, hdropC, htakeC]
    exact decide_eq_false (fun he => hlne (he.symm.trans hchk))

/-! ## Read-trace of `SSTable::read_record_at` (C10) -/

/-- The file positions `read_record_at` asks `pread_all` for, in order: the two
4-byte header reads at `off` and `off + 4` are issued as soon as `off < end_`,
the key bytes only after the `off + 8 + ksize > end_` guard, the value bytes
only after the `pos + vsize > end_` guard (`ksize = 0` / `vsize = 0` skip the
corresponding `pread_all` call, and a failed read aborts the parse). -/
def read_record_at_reads (file : List Nat) (endPos off : Nat) : List Nat :=
  if off ≥ endPos then []
  else
    List.range' off 4 ++
    match readBytes file off 4 with
    | none => []
    | some kb =>
      List.range' (off + 4) 4 ++
      match readBytes file (off + 4) 4 with
      | none => []
      | some vb =>
        if off + 8 + leVal kb > endPos then []
        else
          List.range' (off + 8) (leVal kb) ++
          match readBytes file (off + 8) (leVal kb) with
          | none => []
          | some _ =>
            if leVal vb = TOMBSTONE_VSIZE then []
            else if off + 8 + leVal kb + leVal vb > endPos then []
            else List.range' (off + 8 + leVal kb) (leVal vb)

/-- Every position `read_record_at` reads lies either in the fixed 8-byte
header window at `off`, or strictly inside the records region. -/
theorem read_record_at_reads_mem (file : List Nat) (endPos off q : Nat)
    (hq : q ∈ read_record_at_reads file endPos off) :
    off < endPos ∧ (q < off + 8 ∨ (off + 8 ≤ q ∧ q < endPos)) := by
  unfold read_record_at_reads at hq
  by_cases hoe : off ≥ endPos
  · rw [if_pos hoe] at hq
    simp at hq
  · rw [if_neg hoe] at hq
    refine ⟨by omega, ?_⟩
    cases heqk : readBytes file off 4 with
    | none =>
      rw [heqk] at hq
      simp only [List.mem_append, List.mem_range'_1, List.not_mem_nil, or_false] at hq
      omega
    | some kb =>
      rw [heqk] at hq
      cases heqv : readBytes file (off + 4) 4 with
      | none =>
        rw [heqv] at hq
        simp only [List.mem_append, List.mem_range'_1, List.not_mem_nil, or_false] at hq
        omega
      | some vb =>
        rw [heqv] at hq
        simp only [] at hq
        by_cases hg1 : off + 8 + leVal kb > endPos
        · rw [if_pos hg1] at hq
          simp only [List.mem_append, List.mem_range'_1, List.not_mem_nil, or_false] at hq
          omega
        · rw [if_neg hg1] at hq
          cases heqkey : readBytes file (off + 8) (leVal kb) with
          | none =>
            rw [heqkey] at hq
            simp only [List.mem_append, List.mem_range'_1, List.not_mem_nil,
              or_false] at hq
            omega
          | some key =>
            rw [heqkey] at hq
            simp only [] at hq
            by_cases ht : leVal vb = TOMBSTONE_VSIZE
            · rw [if_pos ht] at hq
              simp only [List.mem_append, List.mem_range'_1, List.not_mem_nil,
                or_false] at hq
              omega
            · rw [if_neg ht] at hq
              by_cases hg2 : off + 8 + leVal kb + leVal vb > endPos
              · rw [if_pos hg2] at hq
                simp only [List.mem_append, List.mem_range'_1, List.not_mem_nil,
                  or_false] at hq
                omega
              · rw [if_neg hg2] at hq
                simp only [List.mem_append, List.mem_range'_1, List.not_mem_nil,
                  or_false] at hq
                omega

theorem readBytes_some_facts {f : List Nat} {off n : Nat} {c : List Nat}
    (h : readBytes f off n = some c) : off + n ≤ f.length ∧ c.length = n := by
  unfold readBytes at h
  by_cases hle : off + n ≤ f.length
  · rw [if_pos hle] at h
    cases h
    refine ⟨hle, ?_⟩
    rw [List.length_take, List.length_drop]
    omega
  · rw [if_neg hle] at h
    exact Option.noConfusion h

/-- **C10 (amended).** On an opened table (`end_ = file size - 12`),
`read_record_at` stays within the file: every position it reads is strictly
below the file length; the only reads that can touch positions at or past the
records-region end are the two fixed 4-byte header reads (positions in
`[off, off + 8)`, possible only when fewer than 8 region bytes remain at
`off`); and any successfully parsed record lies wholly inside the records
region with a strictly larger continuation offset, so the scan in
`SSTable::get` makes progress and terminates. The original claim that no read
ever touches positions at or beyond the region end is refuted separately by a
concrete counterexample. -/
theorem read_record_at_checked (file : List Nat) (endPos off : Nat)
    (hend : endPos + 12 ≤ file.length) :
    (∀ q ∈ read_record_at_reads file endPos off, q < file.length) ∧
    (∀ q ∈ read_record_at_reads file endPos off, endPos ≤ q → q < off + 8) ∧
    (∀ k v next, read_record_at file endPos off = some (k, v, next) →
      off < next ∧ next ≤ endPos ∧ off + 8 + k.length ≤ endPos) := by
  refine ⟨?_, ?_, ?_⟩
  · intro q hq
    have := read_record_at_reads_mem file endPos off q hq
    omega
  · intro q hq hge
    have := read_record_at_reads_mem file endPos off q hq
    omega
  · intro k v next h
    by_cases hoe : off ≥ endPos
    · unfold read_record_at at h
      rw [if_pos hoe] at h
      exact Option.noConfusion h
    · unfold read_record_at at h
      rw [if_neg hoe] at h
      cases heqk : readBytes file off 4 with
      | none => rw [heqk] at h; simp only [] at h; exact Option.noConfusion h
      | some kb =>
        rw [heqk] at h
        cases heqv : readBytes file (off + 4) 4 with
        | none => rw [heqv] at h; simp only [] at h; exact Option.noConfusion h
        | some vb =>
          rw [heqv] at h
          simp only [] at h
          by_cases hg1 : off + 8 + leVal kb > endPos
          · rw [if_pos hg1] at h
            exact Option.noConfusion h
          · rw [if_neg hg1] at h
            cases heqkey : readBytes file (off + 8) (leVal kb) with
            | none => rw [heqkey] at h; simp only [] at h; exact Option.noConfusion h
            | some key =>
              rw [heqkey] at h
              simp only [] at h
              have hklen : key.length = leVal kb := (readBytes_some_facts heqkey).2
              by_cases ht : leVal vb = TOMBSTONE_VSIZE
              · rw [if_pos ht] at h
                have hk := congrArg (fun r : Option (Str × Option Str × Nat) =>
                  r.elim [] (fun p => p.1)) h
                have hn := congrArg (fun r : Option (Str × Option Str × Nat) =>
                  r.elim 0 (fun p => p.2.2)) h
                simp only [Option.elim_some] at hk hn
                rw [← hn, ← hk]
                omega
              · rw [if_neg ht] at h
                by_cases hg2 : off + 8 + leVal kb + leVal vb > endPos
                · rw [if_pos hg2] at h
                  exact Option.noConfusion h
                · rw [if_neg hg2] at h
                  cases heqval : readBytes file (off + 8 + leVal kb) (leVal vb) with
                  | none => rw [heqval] at h; simp only [] at h; exact Option.noConfusion h
                  | some val =>
                    rw [heqval] at h
                    simp only [] at h
                    have hk := congrArg (fun r : Option (Str × Option Str × Nat) =>
                      r.elim [] (fun p => p.1)) h
                    have hn := congrArg (fun r : Option (Str × Option Str × Nat) =>
                      r.elim 0 (fun p => p.2.2)) h
                    simp only [Option.elim_some] at hk hn
                    rw [← hn, ← hk]
                    omega

/-- Counterexample to C10 as stated: the 13-byte file whose records region is
the single byte `0` passes `is_valid`, yet `read_record_at` at offset 0 issues
its first 4-byte header read over positions `0..3`, and position `2` is at or
beyond the records-region end `1` — the header read runs into the footer. -/
theorem read_record_at_reads_footer :
    is_valid ([0] ++ le64 FOOTER_MAGIC ++ le32 (fnv1a32 [0])) = true ∧
    2 ∈ read_record_at_reads ([0] ++ le64 FOOTER_MAGIC ++ le32 (fnv1a32 [0])) 1 0 ∧
    ¬ (2 < 1) := by decide

/-- Witness for C10 (amended) on a concrete one-record table. -/
theorem read_record_at_checked_witness :
    (0 : Nat) < 10 ∧ (10 : Nat) ≤ 10 ∧ 0 + 8 + ([97] : Str).length ≤ 10 :=
  (read_record_at_checked (encodeSSTable [([97], some [98])]) 10 0 (by decide)).2.2
    [97] (some [98]) 10 (by decide)

/-- Witness for C5: flipping bit 0 of byte 0 of a concrete one-record table. -/
theorem is_valid_flipBit_false_witness :
    is_valid (flipBit (encodeSSTable [([97], some [98])]) 0 0) = false :=
  is_valid_flipBit_false (encodeSSTable [([97], some [98])]) 0 0 (by decide) (by decide)
    (by decide) (Or.inl (by decide)) (by decide)

/-! ## SSTable filenames and manifest id recovery (`db.cpp`) -/

/-- Most-significant-first decimal digits of `n` (empty for 0); `fuel` only
bounds the recursion depth and `fuel ≥ n` is always enough. -/
def decDigitsCore (fuel n : Nat) : List Nat :=
  match fuel, n with
  | 0, _ => []
  | _ + 1, 0 => []
  | fuel + 1, n + 1 => decDigitsCore fuel ((n + 1) / 10) ++ [(n + 1) % 10]

/-- Decimal ASCII of `n` as `operator<<` prints it (at least one digit). -/
def decAscii (n : Nat) : List Nat :=
  if n = 0 then [48] else (decDigitsCore n n).map (fun d => d + 48)

/-- `make_sstable_filename_`: `"sst_"`, the decimal id under
`setw(6)/setfill('0')` (short numbers are left-padded with `'0'` to width 6,
longer ids print in full), then `".dat"`. -/
def make_sstable_filename (id : Nat) : Str :=
  [115, 115, 116, 95] ++
    (List.replicate (6 - (decAscii id).length) 48 ++ decAscii id) ++
    [46, 100, 97, 116]

/-- Digit-string prefix value as `std::stoull` computes it on the inputs that
occur here (a `substr` of a generated filename, so no leading whitespace or
sign): `none` models the `std::invalid_argument` throw when the string does
not start with a digit. -/
def stoullModel (s : Str) : Option Nat :=
  let ds := s.takeWhile (fun c => decide (48 ≤ c ∧ c ≤ 57))
  if ds.isEmpty then none
  else some (ds.foldl (fun a c => a * 10 + (c - 48)) 0)

/-- One manifest line's effect on `next_sst_id_` in
`load_manifest_and_sstables_`: lines starting with `"sst_"` of length ≥ 10
contribute `max next (stoull(substr(4, 6)) + 1)`, the `catch` turning a parse
failure into id 0. -/
def manifestIdBump (next : Nat) (f : Str) : Nat :=
  if f.take 4 = [115, 115, 116, 95] ∧ 10 ≤ f.length then
    max next ((stoullModel ((f.drop 4).take 6)).getD 0 + 1)
  else next

/-- `next_sst_id_` after `load_manifest_and_sstables_` reads manifest `files`
(the member initializer is 1). -/
def loadNextId (files : List Str) : Nat := files.foldl manifestIdBump 1

/-! ## The engine (`HeliosDB`, `db.cpp`) -/

def kMaxMemtableBytes : Nat := 2 ^ 20

def kCompactThreshold : Nat := 8

def kMergeN : Nat := 4

/-- `kv_bytes_`: key size plus value size (0 for a tombstone) plus 16. -/
def kv_bytes (k : Str) (v : Option Str) : Nat :=
  k.length + (match v with | some s => s.length | none => 0) + 16

/-- In-memory engine state: the memtable (`std::map`, a sorted association
list here), its `size_t` byte counter, the WAL records since the last reset,
the manifest lines, `next_sst_id_`, the opened tables newest first, and the
compaction request flag. -/
structure Engine where
  memtable : List Entry
  memtable_bytes : Nat
  wal : List WRec
  manifest : List Str
  next_sst_id : Nat
  sstables : List SST
  compact_requested : Bool

/-- A freshly opened engine on an empty directory: empty manifest,
`next_sst_id_ = 1`, nothing to replay. -/
def freshEngine : Engine := ⟨[], 0, [], [], 1, [], false⟩

/-- The shared memtable update in `put`/`del`/`apply_put`/`apply_delete`:
subtract the old entry's bytes if the key is present, insert, add the new
entry's bytes (`size_t` wrap-around made explicit). -/
def Engine.upsertMem (e : Engine) (k : Str) (v : Option Str) : Engine :=
  let b1 := match mapLookup e.memtable k with
    | some old => (e.memtable_bytes + 2 ^ 64 - kv_bytes k old % 2 ^ 64) % 2 ^ 64
    | none => e.memtable_bytes
  ⟨mapInsert e.memtable k v, (b1 + kv_bytes k v) % 2 ^ 64, e.wal, e.manifest,
    e.next_sst_id, e.sstables, e.compact_requested⟩

/-- `flush_unsafe_`: no-op on an empty memtable; otherwise allocate an id,
write the table and its bloom sidecar, append the filename to the manifest,
install the opened table at the front, clear the memtable and the WAL, and
request compaction at the threshold. -/
def Engine.flush_unsafe (e : Engine) : Engine :=
  if e.memtable.isEmpty then e
  else
    let t := openSST (encodeSSTable e.memtable) (bloomSave (tableBloom e.memtable))
    let ss := t :: e.sstables
    ⟨[], 0, [], e.manifest ++ [make_sstable_filename e.next_sst_id],
      e.next_sst_id + 1, ss,
      if kCompactThreshold ≤ ss.length then true else e.compact_requested⟩

/-- `HeliosDB::flush`: take the lock, `flush_unsafe_`. -/
def Engine.flush (e : Engine) : Engine := e.flush_unsafe

/-- `maybe_flush_unsafe_`: flush once the byte counter reaches 1 MiB. -/
def Engine.maybe_flush (e : Engine) : Engine :=
  if e.memtable_bytes ≥ kMaxMemtableBytes then e.flush_unsafe else e

/-- `HeliosDB::put`: WAL append, memtable update, flush check. -/
def Engine.put (e : Engine) (k v : Str) : Engine :=
  (Engine.upsertMem
    ⟨e.memtable, e.memtable_bytes, e.wal ++ [WRec.put k v], e.manifest,
      e.next_sst_id, e.sstables, e.compact_requested⟩ k (some v)).maybe_flush

/-- `HeliosDB::del`: WAL append, memtable tombstone, flush check. -/
def Engine.del (e : Engine) (k : Str) : Engine :=
  (Engine.upsertMem
    ⟨e.memtable, e.memtable_bytes, e.wal ++ [WRec.del k], e.manifest,
      e.next_sst_id, e.sstables, e.compact_requested⟩ k none).maybe_flush

/-- The newest→oldest table consultation loop in `HeliosDB::get`: the first
table that answers (value or tombstone) wins. -/
def tablesGet : List SST → Str → Option Str
  | [], _ => none
  | t :: ts, k =>
    match t.get k with
    | some inner => inner
    | none => tablesGet ts k

/-- `HeliosDB::get`: memtable first (a memtable tombstone answers absent),
then the tables newest→oldest. -/
def Engine.get (e : Engine) (k : Str) : Option Str :=
  match mapLookup e.memtable k with
  | some v => v
  | none => tablesGet e.sstables k

/-- A client operation. -/
inductive Op where
  | put (key value : Str)
  | del (key : Str)

def Engine.applyOp (e : Engine) : Op → Engine
  | .put k v => e.put k v
  | .del k => e.del k

/-- `put`/`del` without the trailing flush check (WAL append plus memtable
update); `applyOp e op = (applyCore e op).maybe_flush`. -/
def Engine.applyCore (e : Engine) : Op → Engine
  | .put k v =>
    Engine.upsertMem
      ⟨e.memtable, e.memtable_bytes, e.wal ++ [WRec.put k v], e.manifest,
        e.next_sst_id, e.sstables, e.compact_requested⟩ k (some v)
  | .del k =>
    Engine.upsertMem
      ⟨e.memtable, e.memtable_bytes, e.wal ++ [WRec.del k], e.manifest,
        e.next_sst_id, e.sstables, e.compact_requested⟩ k none

/-- Apply a sequence of operations in order. -/
def Engine.run (e : Engine) (ops : List Op) : Engine := ops.foldl Engine.applyOp e

/-- Claim-side recurrence for C1, following the spec's words: the value of the
last `put(k, v)` not followed by a later `del(k)`, absent otherwise. -/
def specLast (ops : List Op) (k : Str) : Option Str :=
  ops.foldl (fun acc op =>
    match op with
    | .put k2 v => if k2 = k then some v else acc
    | .del k2 => if k2 = k then none else acc) none

/-- The last memtable write a sequence of operations makes to key `k`. -/
def lastUpd (ops : List Op) (k : Str) : Option (Option Str) :=
  ops.foldl (fun acc op =>
    match op with
    | .put k2 v => if k2 = k then some (some v) else acc
    | .del k2 => if k2 = k then some none else acc) none

/-- **C8.** `flush()` on an engine whose memtable is empty is a no-op: no
table is written or installed (manifest and live list unchanged), and the
WAL, the next SSTable id, the byte counter, the memtable and the compaction
flag are all left as they were. -/
theorem flush_empty_noop (e : Engine) (h : e.memtable = []) :
    e.flush.manifest = e.manifest ∧ e.flush.sstables = e.sstables ∧
    e.flush.wal = e.wal ∧ e.flush.next_sst_id = e.next_sst_id ∧
    e.flush.memtable_bytes = e.memtable_bytes ∧ e.flush.memtable = e.memtable ∧
    e.flush.compact_requested = e.compact_requested := by
  have hid : e.flush = e := by
    unfold Engine.flush Engine.flush_unsafe
    rw [if_pos (by rw [h]; rfl)]
  rw [hid]
  exact ⟨rfl, rfl, rfl, rfl, rfl, rfl, rfl⟩

/-- Witness for C8 on the fresh engine. -/
theorem flush_empty_noop_witness :
    freshEngine.flush.manifest = freshEngine.manifest ∧
    freshEngine.flush.sstables = freshEngine.sstables ∧
    freshEngine.flush.wal = freshEngine.wal ∧
    freshEngine.flush.next_sst_id = freshEngine.next_sst_id ∧
    freshEngine.flush.memtable_bytes = freshEngine.memtable_bytes ∧
    freshEngine.flush.memtable = freshEngine.memtable ∧
    freshEngine.flush.compact_requested = freshEngine.compact_requested :=
  flush_empty_noop freshEngine rfl

/-- **C7.** `HeliosDB::put` has no size check and never rejects an oversized
value: a `put` of a value of exactly `2^32 - 1` bytes on a fresh engine goes
through — the WAL is appended, the memtable is updated, the resulting flush
records a new table in the manifest — and `write_atomic`'s `uint32_t` cast
turns `vsize` into the tombstone sentinel, so the record is encoded exactly as
a tombstone for the key (the value bytes are silently dropped), and a
subsequent `get` answers absent. The spec's required rejection does not
happen anywhere in this path. -/
theorem put_huge_value_not_rejected :
    encodeRecord ([97], some (List.replicate (2 ^ 32 - 1) 0)) =
      encodeRecord ([97], none) ∧
    (freshEngine.put [97] (List.replicate (2 ^ 32 - 1) 0)).manifest =
      [make_sstable_filename 1] ∧
    (freshEngine.put [97] (List.replicate (2 ^ 32 - 1) 0)).get [97] = none := by
  set v : Str := List.replicate (2 ^ 32 - 1) 0 with hv
  have hlen : v.length = 2 ^ 32 - 1 := List.length_replicate _ _
  have hmod : (2 ^ 32 - 1) % 2 ^ 32 = 2 ^ 32 - 1 := Nat.mod_eq_of_lt (by norm_num)
  have henc : encodeRecord ([97], some v) = encodeRecord ([97], none) := by
    unfold encodeRecord TOMBSTONE_VSIZE
    simp only [hlen, hmod]
    rw [if_neg (by simp)]
  have hfile : encodeSSTable [([97], some v)] = encodeSSTable [([97], none)] := by
    unfold encodeSSTable encodeRegion
    simp [henc]
  have hbloom : tableBloom [([97], some v)] = tableBloom [([97], none)] := rfl
  have hkv : kv_bytes [97] (some v) = 2 ^ 32 + 16 := by
    unfold kv_bytes
    simp only [hlen]
    norm_num
  have h1 : freshEngine.put [97] v =
      Engine.maybe_flush ⟨mapInsert [] [97] (some v),
        (0 + kv_bytes [97] (some v)) % 2 ^ 64, [WRec.put [97] v], [], 1, [],
        false⟩ := rfl
  have hbytes : (0 + kv_bytes [97] (some v)) % 2 ^ 64 = 2 ^ 32 + 16 := by
    rw [Nat.zero_add, hkv]
    exact Nat.mod_eq_of_lt (by norm_num)
  have hins : mapInsert [] [97] (some v) = [([97], some v)] := rfl
  have hstate : freshEngine.put [97] v =
      ⟨[], 0, [], [make_sstable_filename 1], 2,
        [openSST (encodeSSTable [([97], some v)])
          (bloomSave (tableBloom [([97], some v)]))], false⟩ := by
    rw [h1, hins, hbytes]
    unfold Engine.maybe_flush
    rw [if_pos (by norm_num [kMaxMemtableBytes])]
    unfold Engine.flush_unsafe
    rw [if_neg (by simp)]
    rfl
  refine ⟨henc, ?_, ?_⟩
  · rw [hstate]
  · rw [hstate]
    unfold Engine.get
    show tablesGet [openSST (encodeSSTable [([97], some v)])
      (bloomSave (tableBloom [([97], some v)]))] [97] = none
    rw [tablesGet, hfile, hbloom]
    have hget := get_encoded_found [([97], none)]
      (by intro e he; simp at he; subst he; exact (by norm_num : ([97] : Str).length < 2 ^ 32))
      (by simp) ([97], none) (by simp)
    rw [hget]

/-- The memtable effect of one operation. -/
def memStep (m : List Entry) : Op → List Entry
  | .put k v => mapInsert m k (some v)
  | .del k => mapInsert m k none

theorem applyCore_memtable (e : Engine) (op : Op) :
    (e.applyCore op).memtable = memStep e.memtable op := by
  cases op <;> rfl

theorem coreFold_fields (ops : List Op) : ∀ e : Engine,
    (List.foldl Engine.applyCore e ops).manifest = e.manifest ∧
    (List.foldl Engine.applyCore e ops).sstables = e.sstables ∧
    (List.foldl Engine.applyCore e ops).memtable =
      List.foldl memStep e.memtable ops := by
  induction ops with
  | nil => intro e; exact ⟨rfl, rfl, rfl⟩
  | cons op rest ih =>
    intro e
    obtain ⟨h1, h2, h3⟩ := ih (e.applyCore op)
    simp only [List.foldl_cons]
    refine ⟨h1.trans (by cases op <;> rfl), h2.trans (by cases op <;> rfl), ?_⟩
    rw [h3, applyCore_memtable]

theorem run_eq_coreFold (ops : List Op)
    (H : ∀ i, (h : i < ops.length) →
      ((List.foldl Engine.applyCore freshEngine (ops.take i)).applyCore
        ops[i]).memtable_bytes < kMaxMemtableBytes) :
    freshEngine.run ops = List.foldl Engine.applyCore freshEngine ops := by
  induction ops using List.reverseRecOn with
  | nil => rfl
  | append_singleton ops2 op ih =>
    have hpre : freshEngine.run ops2 = List.foldl Engine.applyCore freshEngine ops2 := by
      refine ih (fun i h => ?_)
      have hH := H i (by rw [List.length_append]; omega)
      rw [List.take_append_of_le_length (by omega), List.getElem_append_left h] at hH
      exact hH
    have hb := H ops2.length (by simp)
    simp only [List.take_left, List.getElem_concat_length] at hb
    unfold Engine.run at hpre ⊢
    rw [List.foldl_append, List.foldl_append, List.foldl_cons, List.foldl_cons,
      List.foldl_nil, List.foldl_nil, hpre]
    cases op with
    | put k v =>
      show (Engine.upsertMem _ k (some v)).maybe_flush = _
      unfold Engine.maybe_flush
      rw [if_neg (by exact fun hge => absurd hb (by simpa using Nat.not_lt.2 hge))]
      rfl
    | del k =>
      show (Engine.upsertMem _ k none).maybe_flush = _
      unfold Engine.maybe_flush
      rw [if_neg (by exact fun hge => absurd hb (by simpa using Nat.not_lt.2 hge))]
      rfl

theorem lookup_memStep_fold (ops : List Op) (k : Str) : ∀ m : List Entry,
    mapLookup (List.foldl memStep m ops) k =
      List.foldl (fun acc op =>
        match op with
        | Op.put k2 v => if k2 = k then some (some v) else acc
        | Op.del k2 => if k2 = k then some none else acc) (mapLookup m k) ops := by
  induction ops with
  | nil => intro m; rfl
  | cons op rest ih =>
    intro m
    simp only [List.foldl_cons]
    rw [ih (memStep m op)]
    congr 1
    cases op with
    | put k2 v => exact mapLookup_mapInsert m k2 (some v) k
    | del k2 => exact mapLookup_mapInsert m k2 none k

theorem specLast_eq_lastUpd (ops : List Op) (k : Str) :
    specLast ops k = (lastUpd ops k).getD none := by
  unfold specLast lastUpd
  suffices h : ∀ a : Option (Option Str),
      List.foldl (fun acc op =>
        match op with
        | Op.put k2 v => if k2 = k then some v else acc
        | Op.del k2 => if k2 = k then none else acc) (a.getD none) ops =
      (List.foldl (fun acc op =>
        match op with
        | Op.put k2 v => if k2 = k then some (some v) else acc
        | Op.del k2 => if k2 = k then some none else acc) a ops).getD none by
    exact h none
  induction ops with
  | nil => intro a; rfl
  | cons op rest ih =>
    intro a
    simp only [List.foldl_cons]
    cases op with
    | put k2 v =>
      show List.foldl _ (if k2 = k then some v else a.getD none) rest =
        (List.foldl _ (if k2 = k then some (some v) else a) rest).getD none
      by_cases hk : k2 = k
      · rw [if_pos hk, if_pos hk, ← ih (some (some v))]
        rfl
      · rw [if_neg hk, if_neg hk, ih a]
    | del k2 =>
      show List.foldl _ (if k2 = k then none else a.getD none) rest =
        (List.foldl _ (if k2 = k then some none else a) rest).getD none
      by_cases hk : k2 = k
      · rw [if_pos hk, if_pos hk, ← ih (some none)]
        rfl
      · rw [if_neg hk, if_neg hk, ih a]

/-- **C1.** On a freshly opened engine, for any sequence of `put`/`del`
operations during which no flush fires (the byte counter stays below the
1 MiB threshold at every flush check), `get(k)` returns exactly the value of
the last `put` on `k` not followed by a later `del(k)`, and absent if there
is no such put. -/
theorem put_del_get_spec (ops : List Op) (k : Str)
    (H : ∀ i, (h : i < ops.length) →
      ((List.foldl Engine.applyCore freshEngine (ops.take i)).applyCore
        ops[i]).memtable_bytes < kMaxMemtableBytes) :
    (freshEngine.run ops).get k = specLast ops k := by
  rw [run_eq_coreFold ops H]
  obtain ⟨hman, hsst, hmem⟩ := coreFold_fields ops freshEngine
  unfold Engine.get
  rw [hmem, hsst, lookup_memStep_fold ops k freshEngine.memtable,
    specLast_eq_lastUpd]
  have hlu : lastUpd ops k =
      List.foldl (fun acc op =>
        match op with
        | Op.put k2 v => if k2 = k then some (some v) else acc
        | Op.del k2 => if k2 = k then some none else acc)
        (mapLookup freshEngine.memtable k) ops := rfl
  rw [← hlu]
  cases lastUpd ops k <;> rfl

/-- Witness for C1 on a concrete three-operation history. -/
theorem put_del_get_spec_witness :
    (freshEngine.run [Op.put [97] [49], Op.del [97], Op.put [98] [50]]).get [97] =
      specLast [Op.put [97] [49], Op.del [97], Op.put [98] [50]] [97] :=
  put_del_get_spec [Op.put [97] [49], Op.del [97], Op.put [98] [50]] [97] (by decide)

/-! ## Decimal digits and filename parsing (C6) -/

theorem decCore_foldl (fuel : Nat) : ∀ n a, n ≤ fuel →
    (decDigitsCore fuel n).foldl (fun x d => x * 10 + d) a =
      a * 10 ^ (decDigitsCore fuel n).length + n := by
  induction fuel with
  | zero =>
    intro n a hn
    have : n = 0 := by omega
    subst this
    simp [decDigitsCore]
  | succ f ih =>
    intro n a hn
    cases n with
    | zero => simp [decDigitsCore]
    | succ m =>
      show ((decDigitsCore f ((m + 1) / 10) ++ [(m + 1) % 10]).foldl
        (fun x d => x * 10 + d) a) =
        a * 10 ^ (decDigitsCore f ((m + 1) / 10) ++ [(m + 1) % 10]).length + (m + 1)
      rw [List.foldl_append, ih ((m + 1) / 10) a (by omega)]
      simp only [List.foldl_cons, List.foldl_nil, List.length_append,
        List.length_cons, List.length_nil]
      rw [pow_succ, ← mul_assoc]
      have := Nat.div_add_mod (m + 1) 10
      omega

theorem decCore_digits_lt (fuel : Nat) : ∀ n, ∀ d ∈ decDigitsCore fuel n, d < 10 := by
  induction fuel with
  | zero => intro n d hd; simp [decDigitsCore] at hd
  | succ f ih =>
    intro n d hd
    cases n with
    | zero => simp [decDigitsCore] at hd
    | succ m =>
      rw [show decDigitsCore (f + 1) (m + 1) =
        decDigitsCore f ((m + 1) / 10) ++ [(m + 1) % 10] from rfl] at hd
      rcases List.mem_append.1 hd with h | h
      · exact ih _ d h
      · have : d = (m + 1) % 10 := by simpa using h
        subst this
        exact Nat.mod_lt _ (by norm_num)

theorem decCore_length_le (fuel : Nat) : ∀ n k, n ≤ fuel → n < 10 ^ k →
    (decDigitsCore fuel n).length ≤ k := by
  induction fuel with
  | zero =>
    intro n k hn _
    have : n = 0 := by omega
    subst this
    simp [decDigitsCore]
  | succ f ih =>
    intro n k hn hk
    cases n with
    | zero => simp [decDigitsCore]
    | succ m =>
      cases k with
      | zero => omega
      | succ j =>
        show (decDigitsCore f ((m + 1) / 10) ++ [(m + 1) % 10]).length ≤ j + 1
        rw [List.length_append]
        have hdiv : (m + 1) / 10 < 10 ^ j := by
          rw [Nat.div_lt_iff_lt_mul (by norm_num)]
          calc m + 1 < 10 ^ (j + 1) := hk
          _ = 10 ^ j * 10 := by rw [pow_succ]
        have := ih ((m + 1) / 10) j (by omega) hdiv
        simp only [List.length_cons, List.length_nil]
        omega

theorem decAscii_digits (n : Nat) : ∀ c ∈ decAscii n, 48 ≤ c ∧ c ≤ 57 := by
  intro c hc
  unfold decAscii at hc
  by_cases h0 : n = 0
  · rw [if_pos h0] at hc
    simp at hc
    omega
  · rw [if_neg h0] at hc
    obtain ⟨d, hd, rfl⟩ := List.mem_map.1 hc
    have := decCore_digits_lt n n d hd
    omega

theorem decAscii_foldl (n : Nat) :
    (decAscii n).foldl (fun a c => a * 10 + (c - 48)) 0 = n := by
  unfold decAscii
  by_cases h0 : n = 0
  · rw [if_pos h0, h0]
    rfl
  · rw [if_neg h0, List.foldl_map]
    have heq : (fun (x : Nat) (y : Nat) => x * 10 + (y + 48 - 48)) =
        (fun (x : Nat) (d : Nat) => x * 10 + d) := by
      funext x y
      omega
    rw [heq, decCore_foldl n n 0 (Nat.le_refl n)]
    omega

theorem decAscii_length_le (n : Nat) (k : Nat) (hk : 1 ≤ k) (h : n < 10 ^ k) :
    (decAscii n).length ≤ k := by
  unfold decAscii
  by_cases h0 : n = 0
  · rw [if_pos h0]
    simpa using hk
  · rw [if_neg h0, List.length_map]
    exact decCore_length_le n n k (Nat.le_refl n) h

theorem foldl_digits_pad (m : Nat) (l : List Nat) :
    (List.replicate m 48 ++ l).foldl (fun a c => a * 10 + (c - 48)) 0 =
      l.foldl (fun a c => a * 10 + (c - 48)) 0 := by
  rw [List.foldl_append]
  congr 1
  induction m with
  | zero => rfl
  | succ j ih => simpa using ih

theorem stoull_filename (id : Nat) (hid : id < 10 ^ 6) :
    stoullModel (((make_sstable_filename id).drop 4).take 6) = some id := by
  have hdl : (decAscii id).length ≤ 6 := decAscii_length_le id 6 (by norm_num) hid
  have hdrop : (make_sstable_filename id).drop 4 =
      (List.replicate (6 - (decAscii id).length) 48 ++ decAscii id) ++
        [46, 100, 97, 116] := by
    unfold make_sstable_filename
    rw [List.append_assoc]
    exact List.drop_left' rfl
  have hlenpad : (List.replicate (6 - (decAscii id).length) 48 ++ decAscii id).length
      = 6 := by
    rw [List.length_append, List.length_replicate]
    omega
  rw [hdrop, List.take_left' hlenpad]
  unfold stoullModel
  have hall : ∀ c ∈ List.replicate (6 - (decAscii id).length) 48 ++ decAscii id,
      (fun c => decide (48 ≤ c ∧ c ≤ 57)) c = true := by
    intro c hc
    rcases List.mem_append.1 hc with h | h
    · have : c = 48 := List.eq_of_mem_replicate h
      subst this
      decide
    · have := decAscii_digits id c h
      simp only [decide_eq_true_eq]
      omega
  rw [List.takeWhile_eq_self_iff.mpr hall]
  rw [if_neg (by
    intro hemp
    have := List.isEmpty_iff.1 hemp
    rw [this] at hlenpad
    simp at hlenpad)]
  rw [foldl_digits_pad, decAscii_foldl]

/-- The six-digit truncation at `id = 10^6`: `substr(4, 6)` of
`"sst_1000000.dat"` is `"100000"`. -/
theorem stoull_filename_million :
    stoullModel (((make_sstable_filename (10 ^ 6)).drop 4).take 6) =
      some (10 ^ 5) := by decide

theorem filename_head_len (id : Nat) :
    (make_sstable_filename id).take 4 = [115, 115, 116, 95] ∧
      10 ≤ (make_sstable_filename id).length := by
  constructor
  · unfold make_sstable_filename
    rw [List.append_assoc]
    exact List.take_left' rfl
  · unfold make_sstable_filename
    simp only [List.length_append, List.length_cons, List.length_nil,
      List.length_replicate]
    omega

theorem manifestIdBump_filename (next id : Nat) (hid : id < 10 ^ 6) :
    manifestIdBump next (make_sstable_filename id) = max next (id + 1) := by
  unfold manifestIdBump
  rw [if_pos (filename_head_len id), stoull_filename id hid]
  rfl

theorem manifestIdBump_filename_million (next : Nat) :
    manifestIdBump next (make_sstable_filename (10 ^ 6)) =
      max next (10 ^ 5 + 1) := by
  unfold manifestIdBump
  rw [if_pos (filename_head_len (10 ^ 6)), stoull_filename_million]
  rfl

theorem make_sstable_filename_inj (i j : Nat) (hi : i < 10 ^ 6) (hj : j < 10 ^ 6)
    (h : make_sstable_filename i = make_sstable_filename j) : i = j := by
  have h1 := stoull_filename i hi
  have h2 := stoull_filename j hj
  rw [h] at h1
  exact Option.some.inj (h1.symm.trans h2)

/-- Persistent directory-level state: the manifest lines and the engine's id
allocator `next_sst_id_`. -/
structure DirState where
  manifest : List Str
  nextId : Nat

/-- Directory-level effect of the three operations that touch the manifest or
the allocator: a flush that writes a table (`flush_unsafe_`: append the new
filename, bump the allocator), an installed compaction (`compact_once_`:
replace the last `kMergeN` manifest lines by the merged table's filename, the
id having been taken from the allocator), and a restart
(`load_manifest_and_sstables_` recomputing `next_sst_id_` from the manifest;
all files assumed present and valid, so the manifest is kept as is). -/
inductive DirStep : DirState → DirState → Prop
  | flush (s : DirState) :
      DirStep s ⟨s.manifest ++ [make_sstable_filename s.nextId], s.nextId + 1⟩
  | compact (s : DirState) (h : kMergeN ≤ s.manifest.length) :
      DirStep s ⟨s.manifest.take (s.manifest.length - kMergeN) ++
        [make_sstable_filename s.nextId], s.nextId + 1⟩
  | restart (s : DirState) : DirStep s ⟨s.manifest, loadNextId s.manifest⟩

/-- States reachable from a fresh directory. -/
inductive DirReach : DirState → Prop
  | init : DirReach ⟨[], 1⟩
  | step {s t : DirState} : DirReach s → DirStep s t → DirReach t

theorem manifestIdBump_acc_le (next : Nat) (f : Str) :
    next ≤ manifestIdBump next f := by
  unfold manifestIdBump
  split
  · exact Nat.le_max_left _ _
  · exact Nat.le_refl _

theorem manifestIdBump_mono {a b : Nat} (f : Str) (h : a ≤ b) :
    manifestIdBump a f ≤ manifestIdBump b f := by
  unfold manifestIdBump
  split
  · exact max_le_max h (Nat.le_refl _)
  · exact h

theorem foldl_bump_acc_le (l : List Str) : ∀ a : Nat,
    a ≤ List.foldl manifestIdBump a l := by
  induction l with
  | nil => intro a; exact Nat.le_refl a
  | cons f rest ih =>
    intro a
    exact Nat.le_trans (manifestIdBump_acc_le a f) (ih (manifestIdBump a f))

theorem foldl_bump_mono (l : List Str) : ∀ {a b : Nat}, a ≤ b →
    List.foldl manifestIdBump a l ≤ List.foldl manifestIdBump b l := by
  induction l with
  | nil => intro a b h; exact h
  | cons f rest ih => intro a b h; exact ih (manifestIdBump_mono f h)

theorem foldl_bump_mem (l : List Str) (f : Str) (hf : f ∈ l) : ∀ a : Nat,
    manifestIdBump a f ≤ List.foldl manifestIdBump a l := by
  induction l with
  | nil => simp at hf
  | cons g rest ih =>
    intro a
    rcases List.mem_cons.1 hf with h | h
    · subst h
      exact foldl_bump_acc_le rest (manifestIdBump a f)
    · exact Nat.le_trans
        (manifestIdBump_mono f (manifestIdBump_acc_le a g)) (ih h _)

/-- Every id recorded in the manifest (six-digit regime) stays strictly below
the recomputed allocator after a restart. -/
theorem loadNextId_gt (files : List Str) (id : Nat) (hid : id < 10 ^ 6)
    (hf : make_sstable_filename id ∈ files) : id < loadNextId files := by
  have h1 := foldl_bump_mem files (make_sstable_filename id) hf 1
  rw [manifestIdBump_filename 1 id hid] at h1
  unfold loadNextId
  omega

/-- **C6 (amended/corrected).** As long as the directory stays in the
six-digit regime — every id involved is below `10^6`, so `substr(4, 6)`
recovers exactly the printed id — allocation is sound: every filename in the
manifest carries an id strictly below the allocator, the next allocated
filename is fresh (not yet in the manifest), and each step of flush,
compaction or restart preserves the regime. The original unconditional claim
fails at id `10^6`: see the reuse counterexample, where a restart drops the
allocator from `10^6 + 1` to `10^6` because `substr(4, 6)` truncates
`"1000000"` to `"100000"`, and the next flush reuses a recorded filename. -/
theorem sst_id_allocation (s t : DirState) (hstep : DirStep s t)
    (hinv : ∀ f ∈ s.manifest, ∃ id, f = make_sstable_filename id ∧
      id < s.nextId ∧ id < 10 ^ 6)
    (hbound : s.nextId < 10 ^ 6) :
    (∀ f ∈ s.manifest, ∀ j, j < 10 ^ 6 → f = make_sstable_filename j →
      j < s.nextId) ∧
    make_sstable_filename s.nextId ∉ s.manifest ∧
    (∀ f ∈ t.manifest, ∃ id, f = make_sstable_filename id ∧
      id < t.nextId ∧ id < 10 ^ 6) := by
  have hdom : ∀ f ∈ s.manifest, ∀ j, j < 10 ^ 6 → f = make_sstable_filename j →
      j < s.nextId := by
    intro f hf j hj hfj
    obtain ⟨id, hfe, hlt, hid6⟩ := hinv f hf
    have : id = j := make_sstable_filename_inj id j hid6 hj (hfe.symm.trans hfj)
    omega
  have hfresh : make_sstable_filename s.nextId ∉ s.manifest := by
    intro hmem
    have := hdom _ hmem s.nextId hbound rfl
    omega
  refine ⟨hdom, hfresh, ?_⟩
  cases hstep with
  | flush =>
    intro f hf
    dsimp only at hf ⊢
    rcases List.mem_append.1 hf with h | h
    · obtain ⟨id, hfe, hlt, hid6⟩ := hinv f h
      exact ⟨id, hfe, by omega, hid6⟩
    · have : f = make_sstable_filename s.nextId := by simpa using h
      exact ⟨s.nextId, this, by omega, hbound⟩
  | compact hlen =>
    intro f hf
    dsimp only at hf ⊢
    rcases List.mem_append.1 hf with h | h
    · obtain ⟨id, hfe, hlt, hid6⟩ := hinv f (List.mem_of_mem_take h)
      exact ⟨id, hfe, by omega, hid6⟩
    · have : f = make_sstable_filename s.nextId := by simpa using h
      exact ⟨s.nextId, this, by omega, hbound⟩
  | restart =>
    intro f hf
    dsimp only at hf ⊢
    obtain ⟨id, hfe, hlt, hid6⟩ := hinv f hf
    refine ⟨id, hfe, ?_, hid6⟩
    exact loadNextId_gt s.manifest id hid6 (hfe ▸ hf)

/-- Witness for C6 (amended) on a one-file directory. -/
theorem sst_id_allocation_witness : 1 < 2 :=
  (sst_id_allocation ⟨[make_sstable_filename 1], 2⟩ _
    (DirStep.flush ⟨[make_sstable_filename 1], 2⟩)
    (by
      intro f hf
      have : f = make_sstable_filename 1 := by simpa using hf
      exact ⟨1, this, by norm_num, by norm_num⟩)
    (by norm_num)).1 (make_sstable_filename 1) (by simp) 1 (by norm_num) rfl

/-- `n` flushes from a fresh directory record exactly `sst_000001.dat` …
and leave the allocator at `n + 1`. -/
theorem flushes_reach (n : Nat) :
    DirReach ⟨(List.range' 1 n).map make_sstable_filename, n + 1⟩ := by
  induction n with
  | zero => exact DirReach.init
  | succ m ih =>
    have heq : (List.range' 1 m).map make_sstable_filename ++
        [make_sstable_filename (m + 1)] =
        (List.range' 1 (m + 1)).map make_sstable_filename := by
      rw [List.range'_1_concat, List.map_append, Nat.add_comm 1 m, List.map_cons,
        List.map_nil]
    refine DirReach.step ih ?_
    have h2 := DirStep.flush ⟨(List.range' 1 m).map make_sstable_filename, m + 1⟩
    rw [← heq]
    exact h2

theorem loadA (n : Nat) (hn : n ≤ 999999) :
    List.foldl manifestIdBump 1 ((List.range' 1 n).map make_sstable_filename) =
      n + 1 := by
  induction n with
  | zero => rfl
  | succ m ih =>
    rw [List.range'_1_concat, List.map_append, List.foldl_append, ih (by omega)]
    simp only [List.map_cons, List.map_nil, List.foldl_cons, List.foldl_nil]
    rw [show (1 + m) = m + 1 from by omega,
      manifestIdBump_filename (m + 1) (m + 1) (by omega)]
    omega

theorem loadNextId_million :
    loadNextId ((List.range' 1 (10 ^ 6)).map make_sstable_filename) = 10 ^ 6 := by
  unfold loadNextId
  have hsplit : (10 : Nat) ^ 6 = 999999 + 1 := by norm_num
  rw [hsplit, List.range'_1_concat, List.map_append, List.foldl_append,
    loadA 999999 (by omega)]
  simp only [List.map_cons, List.map_nil, List.foldl_cons, List.foldl_nil]
  rw [show (1 + 999999 : Nat) = 10 ^ 6 from by norm_num,
    manifestIdBump_filename_million]
  norm_num

/-- Counterexample to C6 as stated: after `10^6` flushes and one restart the
directory is in a reachable state whose allocator equals `10^6` while the
manifest already records `sst_1000000.dat`; the very next flush allocates
`sst_1000000.dat` again — the new identifier is not greater than every
recorded identifier, and the filename is not even unique. -/
theorem sst_id_reuse_cex :
    DirReach ⟨(List.range' 1 (10 ^ 6)).map make_sstable_filename, 10 ^ 6⟩ ∧
    make_sstable_filename (10 ^ 6) ∈
      (List.range' 1 (10 ^ 6)).map make_sstable_filename := by
  constructor
  · have hr := flushes_reach (10 ^ 6)
    have hstep := DirStep.restart
      ⟨(List.range' 1 (10 ^ 6)).map make_sstable_filename, 10 ^ 6 + 1⟩
    rw [show DirState.mk ((List.range' 1 (10 ^ 6)).map make_sstable_filename)
        (loadNextId ((List.range' 1 (10 ^ 6)).map make_sstable_filename)) =
      ⟨(List.range' 1 (10 ^ 6)).map make_sstable_filename, 10 ^ 6⟩ from by
        rw [loadNextId_million]] at hstep
    exact DirReach.step hr hstep
  · exact List.mem_map_of_mem make_sstable_filename
      (List.mem_range'_1.mpr ⟨by norm_num, by norm_num⟩)

/-! ## Claim statements for C2, C3, C4, C9 -/

/-- **C2.** Writing a non-empty entry list with strictly ascending keys via
`write_atomic` (table plus bloom sidecar) and opening the result yields a
table whose `get` answers the written value (or the tombstone) for every
written key, and `NotInTable` (`none`) for every key that is not among the
written keys — in particular for any key ordered between two written keys. -/
theorem write_atomic_then_get (entries : List Entry)
    (hwf : ∀ e ∈ entries, entryWF e)
    (hs : entries.Pairwise (fun a b => strLt a.1 b.1 = true))
    (hne : entries ≠ []) :
    (∀ e ∈ entries,
      (openSST (encodeSSTable entries) (bloomSave (tableBloom entries))).get e.1 =
        some e.2) ∧
    (∀ key, (∀ e ∈ entries, e.1 ≠ key) →
      (openSST (encodeSSTable entries) (bloomSave (tableBloom entries))).get key =
        none) :=
  ⟨fun e he => get_encoded_found entries hwf hs e he,
   fun key habs => get_encoded_absent entries hwf hs hne key habs⟩

/-- Witness for C2 on a two-entry table (`b` is a tombstone, `bb` falls
between the written keys). -/
theorem write_atomic_then_get_witness :
    (openSST (encodeSSTable [([97], some [49]), ([98], none)])
      (bloomSave (tableBloom [([97], some [49]), ([98], none)]))).get [97] =
        some (some [49]) ∧
    (openSST (encodeSSTable [([97], some [49]), ([98], none)])
      (bloomSave (tableBloom [([97], some [49]), ([98], none)]))).get [97, 97] =
        none :=
  ⟨(write_atomic_then_get [([97], some [49]), ([98], none)] (by decide) (by decide)
      (by decide)).1 ([97], some [49]) (by decide),
   (write_atomic_then_get [([97], some [49]), ([98], none)] (by decide) (by decide)
      (by decide)).2 [97, 97] (by decide)⟩

/-- **C3.** A WAL consisting of `append_put`/`append_delete` records truncated
at an arbitrary byte position replays exactly the maximal prefix of records
that are wholly contained in the kept bytes (full header, full key/value
payload — and their checksums, rewritten intact, match), and nothing from the
truncated tail. -/
theorem wal_truncation_replay (rs : List WRec) (n : Nat)
    (h : ∀ r ∈ rs, wrecWF r) :
    replayBytes (((rs.map encodeWalRecord).flatten).take n) =
      rs.take (numFull rs n) :=
  replayBytes_flatten_take rs n h

/-- Witness for C3: a two-record log cut 20 bytes in (inside the second
record) replays exactly the first record. -/
theorem wal_truncation_replay_witness :
    replayBytes ((([WRec.put [97] [49], WRec.del [98]].map
        encodeWalRecord).flatten).take 20) =
      [WRec.put [97] [49], WRec.del [98]].take
        (numFull [WRec.put [97] [49], WRec.del [98]] 20) :=
  wal_truncation_replay [WRec.put [97] [49], WRec.del [98]] 20 (by decide)

/-- **C4.** In the map built by one compaction cycle over the selected tables
(processed oldest→newest), the later table wins for every key occurring in
several tables: if `(k, v)` sits in table `j` and no later (newer) table
mentions `k`, the merged output maps `k` to exactly `v` — in particular a
tombstone (`v = none`) in the newest table holding `k` is preserved, not
dropped. -/
theorem compaction_later_wins (tables : List (List Entry))
    (hwf : ∀ es ∈ tables, ∀ e ∈ es, entryWF e)
    (hsorted : ∀ es ∈ tables, es.Pairwise (fun a b => strLt a.1 b.1 = true))
    (k : Str) (v : Option Str) (j : Nat) (hj : j < tables.length)
    (hmem : (k, v) ∈ tables[j])
    (hafter : ∀ l, ∀ hl : l < tables.length, j < l → ∀ e ∈ tables[l], e.1 ≠ k) :
    mapLookup (merge_files_scan (tables.map encodeSSTable)) k = some v :=
  merge_lookup_latest tables hwf hsorted k v j hj hmem hafter

/-- Witness for C4: the newer table's tombstone for `a` beats the older
table's value. -/
theorem compaction_later_wins_witness :
    mapLookup (merge_files_scan ([[([97], some [49])], [([97], none)]].map
      encodeSSTable)) [97] = some none :=
  compaction_later_wins [[([97], some [49])], [([97], none)]] (by decide)
    (by decide) [97] none 1 (by decide) (by decide)
    (by intro l hl hgt e he; simp only [List.length_cons, List.length_nil] at hl; omega)

/-- **C9.** The bloom filter has no false negatives: right after `add(key)`,
`possibly_contains(key)` is `true` (for any filter whose bit array has the
size `init` allocates, `(m_bits + 7) / 8` bytes); and every degenerate filter
(`m_bits = 0` or `k_hashes = 0`) answers `true` for every key. -/
theorem bloom_no_false_negative (bf : BloomFilter) (key : Str)
    (hwf : bf.bits.length = (bf.m_bits + 7) / 8) :
    (bf.add key).possibly_contains key = true ∧
    (∀ other : Str, bf.m_bits = 0 ∨ bf.k_hashes = 0 →
      bf.possibly_contains other = true) := by
  refine ⟨BloomFilter.possibly_contains_add bf key hwf, ?_⟩
  intro other hdeg
  unfold BloomFilter.possibly_contains
  rw [if_pos hdeg]

/-- Witness for C9 on an 8-bit filter and on a degenerate filter. -/
theorem bloom_no_false_negative_witness :
    ((BloomFilter.init 8 2).add [97]).possibly_contains [97] = true ∧
    (BloomFilter.init 0 2).possibly_contains [98] = true :=
  ⟨(bloom_no_false_negative (BloomFilter.init 8 2) [97] (by decide)).1,
   (bloom_no_false_negative (BloomFilter.init 0 2) [98] (by decide)).2 [98]
     (Or.inl rfl)⟩

end Helios
